import Mathlib

/-!
Shallow embedding of the Lubyanka chess core (src/board.rs and
src/move_generation.rs): position representation with FEN interchange and
the pseudo-legal move generator.  Rust loops become structural recursion,
machine integers become Nat/Int (with `isize as usize` casts made explicit),
and every fallible operation (array indexing, `expect`, arithmetic underflow)
is reflected in an `Outcome` type whose `panic` constructor marks the places
where the Rust process would abort.
-/

namespace Lubyanka

/-- Outcome of running a fragment of the Rust code: a normal value, a
recoverable `BoardError` carrying its message string, or a process panic
(index out of bounds, integer underflow in debug mode, or a failed
`expect`). -/
inductive Outcome (α : Type) where
  | ok (a : α)
  | err (msg : String)
  | panic
deriving Repr

/-- Constructor-wise decidable equality for outcomes (written out so that
it evaluates by plain kernel reduction). -/
instance {α : Type} [DecidableEq α] : DecidableEq (Outcome α) := fun a b =>
  match a, b with
  | .ok x, .ok y =>
    if h : x = y then .isTrue (by rw [h]) else .isFalse (by simp [h])
  | .err x, .err y =>
    if h : x = y then .isTrue (by rw [h]) else .isFalse (by simp [h])
  | .panic, .panic => .isTrue rfl
  | .ok _, .err _ => .isFalse (by simp)
  | .ok _, .panic => .isFalse (by simp)
  | .err _, .ok _ => .isFalse (by simp)
  | .err _, .panic => .isFalse (by simp)
  | .panic, .ok _ => .isFalse (by simp)
  | .panic, .err _ => .isFalse (by simp)

namespace Outcome

def bind {α β : Type} : Outcome α → (α → Outcome β) → Outcome β
  | ok a, f => f a
  | err m, _ => err m
  | panic, _ => panic

def map {α β : Type} (f : α → β) : Outcome α → Outcome β
  | ok a => ok (f a)
  | err m => err m
  | panic => panic

/-- Extract the value of a successful outcome, with a default otherwise. -/
def getOk {α : Type} : Outcome α → α → α
  | ok a, _ => a
  | _, d => d

end Outcome

/-- `enum Piece` from piece.rs (the file is not under src/; the variant set is
fixed by the 12-symbol match in board.rs `from_fen`). -/
inductive Piece where
  | pawn | knight | bishop | rook | queen | king
deriving DecidableEq, Repr

/-- `enum Color` from piece.rs. -/
inductive Color where
  | white | black
deriving DecidableEq, Repr

/-- `struct Move` from move_generation.rs: an ordered pair of flat square
indices (Rust `usize`). -/
structure Move where
  starting_square : Nat
  target_square : Nat
deriving DecidableEq, Repr

/-- `struct Board` from board.rs.  The two parallel 64-entry arrays are
embedded as total functions on `Fin 64`; all other fields carry over
directly (`u32` clocks as `Nat`, values kept below `2^32` by the parser). -/
structure Board where
  squares : Fin 64 → Option Piece
  colors : Fin 64 → Option Color
  to_move : Color
  can_white_king_side_castle : Bool
  can_black_king_side_castle : Bool
  can_white_queen_side_castle : Bool
  can_black_queen_side_castle : Bool
  en_passant_square : Option Nat
  half_move_clock : Nat
  full_move_number : Nat

/-- Boolean board comparison: the two 64-entry arrays pointwise over
`List.finRange 64`, then every scalar field.  Plain structural recursion,
so it evaluates by kernel reduction. -/
def Board.beqFn (a b : Board) : Bool :=
  ((List.finRange 64).all fun i => decide (a.squares i = b.squares i)) &&
  ((List.finRange 64).all fun i => decide (a.colors i = b.colors i)) &&
  decide (a.to_move = b.to_move) &&
  decide (a.can_white_king_side_castle = b.can_white_king_side_castle) &&
  decide (a.can_black_king_side_castle = b.can_black_king_side_castle) &&
  decide (a.can_white_queen_side_castle = b.can_white_queen_side_castle) &&
  decide (a.can_black_queen_side_castle = b.can_black_queen_side_castle) &&
  decide (a.en_passant_square = b.en_passant_square) &&
  decide (a.half_move_clock = b.half_move_clock) &&
  decide (a.full_move_number = b.full_move_number)

/-- Board equality is decided by `Board.beqFn`. -/
instance : DecidableEq Board := fun a b =>
  decidable_of_iff (Board.beqFn a b = true)
    (by
      obtain ⟨as, ac, am, a1, a2, a3, a4, ae, ah, af⟩ := a
      obtain ⟨bs, bc, bm, b1, b2, b3, b4, be, bh, bf⟩ := b
      simp only [Board.beqFn, Bool.and_eq_true, List.all_eq_true,
        decide_eq_true_eq, Board.mk.injEq]
      constructor
      · rintro ⟨⟨⟨⟨⟨⟨⟨⟨⟨h1, h2⟩, h3⟩, h4⟩, h5⟩, h6⟩, h7⟩, h8⟩, h9⟩, h10⟩
        exact ⟨funext fun i => h1 i (List.mem_finRange i),
          funext fun i => h2 i (List.mem_finRange i),
          h3, h4, h5, h6, h7, h8, h9, h10⟩
      · rintro ⟨h1, h2, h3, h4, h5, h6, h7, h8, h9, h10⟩
        subst h1 h2 h3 h4 h5 h6 h7 h8 h9 h10
        simp)

/-- `Color` flip performed at the end of `Board::move_piece`. -/
def Color.flip : Color → Color
  | .white => .black
  | .black => .white

/-- Rust `i as usize` on an `isize` value: reduction modulo `2^64`
(two's-complement reinterpretation); negative values become huge. -/
def castUsize (i : Int) : Nat := (i % (2 : Int) ^ 64).toNat

/-- Bounds-checked read of the `squares` array (`self.squares[i]`):
out-of-range indices panic exactly as Rust array indexing does. -/
def Board.squareAt (b : Board) (i : Nat) : Outcome (Option Piece) :=
  if h : i < 64 then .ok (b.squares ⟨i, h⟩) else .panic

/-- Bounds-checked read of the `colors` array (`self.colors[i]`). -/
def Board.colorAt (b : Board) (i : Nat) : Outcome (Option Color) :=
  if h : i < 64 then .ok (b.colors ⟨i, h⟩) else .panic

/-- The 12-way piece-symbol match inside `Board::from_fen` (board.rs):
uppercase is White, lowercase is Black, anything else is unrecognized. -/
def pieceOfChar (c : Char) : Option (Piece × Color) :=
  match c with
  | 'P' => some (.pawn, .white)
  | 'p' => some (.pawn, .black)
  | 'N' => some (.knight, .white)
  | 'n' => some (.knight, .black)
  | 'B' => some (.bishop, .white)
  | 'b' => some (.bishop, .black)
  | 'R' => some (.rook, .white)
  | 'r' => some (.rook, .black)
  | 'Q' => some (.queen, .white)
  | 'q' => some (.queen, .black)
  | 'K' => some (.king, .white)
  | 'k' => some (.king, .black)
  | _ => none

/-- Modelled from the spec: `Piece::to_symbol` from piece.rs (missing from
src/) — "Piece×Color → single FEN character (uppercase = White,
lowercase = Black)", the inverse of the `from_fen` symbol match. -/
def to_symbol (p : Piece) (c : Color) : Char :=
  match p, c with
  | .pawn, .white => 'P'
  | .pawn, .black => 'p'
  | .knight, .white => 'N'
  | .knight, .black => 'n'
  | .bishop, .white => 'B'
  | .bishop, .black => 'b'
  | .rook, .white => 'R'
  | .rook, .black => 'r'
  | .queen, .white => 'Q'
  | .queen, .black => 'q'
  | .king, .white => 'K'
  | .king, .black => 'k'

/-- Modelled from the spec: `Square::from_algebraic_notation` followed by
`as_index` from square.rs (missing from src/) — succeeds exactly on one
file letter 'a'-'h' followed by one rank digit '1'-'8', yielding
`rank * 8 + file`; otherwise the `InvalidSquare` error whose message is
fixed by the tests in board.rs ("Invalid square string: ...").  -/
def from_algebraic_notation (s : List Char) : Outcome Nat :=
  match s with
  | [f, r] =>
      if 'a' ≤ f ∧ f ≤ 'h' ∧ '1' ≤ r ∧ r ≤ '8' then
        .ok ((r.toNat - 49) * 8 + (f.toNat - 97))
      else .err ("Invalid square string: " ++ String.mk s)
  | _ => .err ("Invalid square string: " ++ String.mk s)

/-- Worker for `splitWS`: `acc` holds the current word, reversed. -/
def splitWSAux : List Char → List Char → List (List Char)
  | [], acc => if acc = [] then [] else [acc.reverse]
  | c :: cs, acc =>
    if c.isWhitespace then
      if acc = [] then splitWSAux cs [] else acc.reverse :: splitWSAux cs []
    else splitWSAux cs (c :: acc)

/-- `str::split_whitespace`: the maximal whitespace-free words of a string,
in order (never producing an empty word). -/
def splitWS (s : List Char) : List (List Char) := splitWSAux s []

/-- Digits of `n` in base 10, most significant first; `fuel` bounds the
number of digits (10 digits cover every `u32` value). -/
def natDigitsAux : Nat → Nat → List Char
  | 0, _ => []
  | fuel + 1, n =>
    if n = 0 then []
    else natDigitsAux fuel (n / 10) ++ [Char.ofNat (48 + n % 10)]

/-- Decimal rendering of a `u32` value (`u32::to_string`). -/
def natToChars (n : Nat) : List Char :=
  if n = 0 then ['0'] else natDigitsAux 10 n

/-- The optional leading '+' sign accepted by `str::parse::<u32>`. -/
def stripPlus : List Char → List Char
  | [] => []
  | c :: rest => if c = '+' then rest else c :: rest

/-- `str::parse::<u32>`: an optional leading '+', then at least one ASCII
digit, with the value required to fit in 32 bits. -/
def parseU32 (s : List Char) : Option Nat :=
  let ds := stripPlus s
  if ds ≠ [] ∧ ds.all Char.isDigit then
    let v := ds.foldl (fun a c => a * 10 + (c.toNat - 48)) 0
    if v < 4294967296 then some v else none
  else none

/-- Mutable state of the placement loop in `from_fen`: the two arrays being
filled, the current file (Rust `u32`) and the current rank (Rust `usize`,
initialized to 7 and decremented at each '/'). -/
structure ParseState where
  squares : Fin 64 → Option Piece
  colors : Fin 64 → Option Color
  file : Nat
  rank : Nat

/-- Is `c` in the Rust pattern `'1'..='8'`? -/
def isFenDigit (c : Char) : Bool := '1' ≤ c && c ≤ '8'

/-- The placement loop of `Board::from_fen`, one step per character:
'/' resets the file and decrements the rank (underflow on a ninth rank
panics, as Rust debug arithmetic does); a digit '1'-'8' skips files; a
recognized piece symbol stores the (piece, color) pair at
`rank * 8 + file` (panicking if that flat index leaves the array) and
advances the file; anything else is the `InvalidPieceSymbol` error. -/
def parsePlacement : List Char → ParseState → Outcome ParseState
  | [], st => .ok st
  | c :: cs, st =>
    if c = '/' then
      if st.rank = 0 then .panic
      else parsePlacement cs { st with file := 0, rank := st.rank - 1 }
    else if isFenDigit c then
      parsePlacement cs { st with file := st.file + (c.toNat - 48) }
    else
      match pieceOfChar c with
      | some (p, col) =>
        let index := st.rank * 8 + st.file
        if h : index < 64 then
          parsePlacement cs
            { st with
              squares := Function.update st.squares ⟨index, h⟩ (some p)
              colors := Function.update st.colors ⟨index, h⟩ (some col)
              file := st.file + 1 }
        else .panic
      | none => .err "invalid piece symbol in FEN"

/-- Active-color field: exactly "w" or "b", else `InvalidActiveColor`. -/
def parseColor (f : List Char) : Outcome Color :=
  if f = ['w'] then .ok .white
  else if f = ['b'] then .ok .black
  else .err "failed to parse active board color, must be 'b' or 'w'."

/-- The castling field check in `from_fen`: every character must come from
{K, Q, k, q, -} (the HashSet-subset test). -/
def castlingOk (f : List Char) : Bool :=
  f.all (fun c => c ∈ ['K', 'Q', 'k', 'q', '-'])

/-- `Board::parse_en_passant_square`: "-" means no target, anything else
goes through the coordinate codec (propagating `InvalidSquare`). -/
def parse_en_passant_square (f : List Char) : Outcome (Option Nat) :=
  if f = ['-'] then .ok none
  else ( from_algebraic_notation f).map some

/-- `fields[i]` on the `Vec` of whitespace-separated fields: Rust indexing,
so a missing field panics. -/
def fieldGet (fields : List (List Char)) (i : Nat) : Outcome (List Char) :=
  match fields[i]? with
  | some f => .ok f
  | none => .panic

/-- `Board::from_fen`, with the Rust evaluation order kept intact:
placement field, active color, castling rights, half-move clock, full-move
number, and only then (inside the struct literal) the en-passant field. -/
def from_fen (fen : String) : Outcome Board :=
  let fields := splitWS fen.toList
  (fieldGet fields 0).bind fun f0 =>
  (parsePlacement f0 ⟨fun _ => none, fun _ => none, 0, 7⟩).bind fun st =>
  (fieldGet fields 1).bind fun f1 =>
  (parseColor f1).bind fun to_move =>
  (fieldGet fields 2).bind fun f2 =>
  (if castlingOk f2 then (.ok () : Outcome Unit) else
    .err "invalid castling rights in fen, must be a combination of 'K', 'Q', 'k', and 'q' or '-'").bind fun _ =>
  (fieldGet fields 4).bind fun f4 =>
  ((match parseU32 f4 with
    | some v => .ok v
    | none => .err "failed to parse half move clock from fen") : Outcome Nat).bind fun half_move_clock =>
  (fieldGet fields 5).bind fun f5 =>
  ((match parseU32 f5 with
    | some v => .ok v
    | none => .err "failed to parse full move number from fen") : Outcome Nat).bind fun full_move_number =>
  (fieldGet fields 3).bind fun f3 =>
  (parse_en_passant_square f3).bind fun en_passant_square =>
  .ok
    { squares := st.squares
      colors := st.colors
      to_move := to_move
      can_white_king_side_castle := f2.contains 'K'
      can_black_king_side_castle := f2.contains 'k'
      can_white_queen_side_castle := f2.contains 'Q'
      can_black_queen_side_castle := f2.contains 'q'
      en_passant_square := en_passant_square
      half_move_clock := half_move_clock
      full_move_number := full_move_number }

/-- Unchecked-in-Rust read used by `to_fen` (the index `rank * 8 + file`
is always in range there); out-of-range reads yield `none`, which the
callers below never exercise. -/
def Board.squareGet (b : Board) (i : Nat) : Option Piece :=
  if h : i < 64 then b.squares ⟨i, h⟩ else none

def Board.colorGet (b : Board) (i : Nat) : Option Color :=
  if h : i < 64 then b.colors ⟨i, h⟩ else none

/-- The inner file loop of `to_fen` for one rank: `fuel` counts the files
still to visit (the loop runs `file` from `8 - fuel`), `e` is the
run-length counter of consecutive empty squares, flushed as a decimal
digit before each occupied square and at rank end. -/
def rleFilesAux (b : Board) (rank : Nat) : Nat → Nat → Nat → List Char
  | 0, _, e => if e > 0 then natToChars e else []
  | fuel + 1, file, e =>
    match b.squareGet (rank * 8 + file), b.colorGet (rank * 8 + file) with
    | some p, some c =>
      (if e > 0 then natToChars e else []) ++
        to_symbol p c :: rleFilesAux b rank fuel (file + 1) 0
    | _, _ => rleFilesAux b rank fuel (file + 1) (e + 1)

/-- One rank of the placement field of `to_fen`. -/
def rankChars (b : Board) (rank : Nat) : List Char := rleFilesAux b rank 8 0 0

/-- The descending rank list `[r, r-1, ..., 0]` of the outer `to_fen` loop
(`for rank in (0..8).rev()` is `rankList 7`). -/
def rankList : Nat → List Nat
  | 0 => [0]
  | r + 1 => (r + 1) :: rankList r

/-- The outer rank loop of `to_fen`: each rank's run-length encoding,
with '/' after every rank except rank 0. -/
def ranksAux (b : Board) : List Nat → List Char
  | [] => []
  | r :: rs => rankChars b r ++ (if r > 0 then ['/'] else []) ++ ranksAux b rs

/-- The whole placement field emitted by `to_fen`. -/
def placementChars (b : Board) : List Char := ranksAux b (rankList 7)

/-- The castling field emitted by `to_fen`: the letters K, Q, k, q in that
fixed order, or '-' when all four rights are false. -/
def castlingChars (b : Board) : List Char :=
  (if b.can_white_king_side_castle then ['K'] else []) ++
  (if b.can_white_queen_side_castle then ['Q'] else []) ++
  (if b.can_black_king_side_castle then ['k'] else []) ++
  (if b.can_black_queen_side_castle then ['q'] else []) ++
  (if !(b.can_white_king_side_castle || b.can_white_queen_side_castle ||
        b.can_black_king_side_castle || b.can_black_queen_side_castle)
    then ['-'] else [])

/-- The `square_names` table in `to_fen`, written out literally
("a1", "b1", ..., "h8"); `squareName sq` is `square_names[sq]`, panicking
outside the table just as Rust indexing does. -/
def square_names : List (List Char) :=
  [['a','1'], ['b','1'], ['c','1'], ['d','1'], ['e','1'], ['f','1'], ['g','1'], ['h','1'],
   ['a','2'], ['b','2'], ['c','2'], ['d','2'], ['e','2'], ['f','2'], ['g','2'], ['h','2'],
   ['a','3'], ['b','3'], ['c','3'], ['d','3'], ['e','3'], ['f','3'], ['g','3'], ['h','3'],
   ['a','4'], ['b','4'], ['c','4'], ['d','4'], ['e','4'], ['f','4'], ['g','4'], ['h','4'],
   ['a','5'], ['b','5'], ['c','5'], ['d','5'], ['e','5'], ['f','5'], ['g','5'], ['h','5'],
   ['a','6'], ['b','6'], ['c','6'], ['d','6'], ['e','6'], ['f','6'], ['g','6'], ['h','6'],
   ['a','7'], ['b','7'], ['c','7'], ['d','7'], ['e','7'], ['f','7'], ['g','7'], ['h','7'],
   ['a','8'], ['b','8'], ['c','8'], ['d','8'], ['e','8'], ['f','8'], ['g','8'], ['h','8']]

/-- The en-passant field of `to_fen`: '-' when absent, otherwise
`square_names[square]` (a panic when the stored index is 64 or more). -/
def epChars : Option Nat → Outcome (List Char)
  | none => .ok ['-']
  | some sq =>
    match square_names[sq]? with
    | some name => .ok name
    | none => .panic

/-- `Board::to_fen`: placement, active color, castling, en-passant and the
two clocks, space-separated.  The only fallible step is the en-passant
table lookup. -/
def to_fen (b : Board) : Outcome (List Char) :=
  (epChars b.en_passant_square).map fun ep =>
    placementChars b ++
    ' ' :: (match b.to_move with | .white => ['w'] | .black => ['b']) ++
    ' ' :: castlingChars b ++
    ' ' :: ep ++
    ' ' :: natToChars b.half_move_clock ++
    ' ' :: natToChars b.full_move_number

/-- `Board::move_piece`: reads the (piece, color) pair at the source index,
writes it to the target index, clears the source (in that order, so a move
whose source equals its target clears the square), and flips the side to
move.  Rust array indexing makes out-of-range source or target a panic. -/
def move_piece (b : Board) (mv : Move) : Outcome Board :=
  if hs : mv.starting_square < 64 then
    if ht : mv.target_square < 64 then
      let starting_piece := b.squares ⟨mv.starting_square, hs⟩
      let starting_piece_color := b.colors ⟨mv.starting_square, hs⟩
      .ok
        { b with
          squares :=
            Function.update
              (Function.update b.squares ⟨mv.target_square, ht⟩ starting_piece)
              ⟨mv.starting_square, hs⟩ none
          colors :=
            Function.update
              (Function.update b.colors ⟨mv.target_square, ht⟩ starting_piece_color)
              ⟨mv.starting_square, hs⟩ none
          to_move := b.to_move.flip }
    else .panic
  else .panic

/-- The FEN string of the standard starting arrangement, used by
`Board::starting_position`. -/
def startingFen : String := "rnbqkbnr/pppppppp/8/8/8/8/PPPPPPPP/RNBQKBNR w KQkq - 0 1"

/-- The all-default board (`Board::default()`): empty arrays, White to
move, no castling rights, no en-passant target, clocks 0 and 1. -/
def defaultBoard : Board where
  squares := fun _ => none
  colors := fun _ => none
  to_move := .white
  can_white_king_side_castle := false
  can_black_king_side_castle := false
  can_white_queen_side_castle := false
  can_black_queen_side_castle := false
  en_passant_square := none
  half_move_clock := 0
  full_move_number := 1

/-- The standard starting arrangement written out explicitly; proved below
to be exactly what `from_fen startingFen` (that is,
`Board::starting_position`) produces. -/
def starting_board : Board where
  squares := fun i =>
    if i.val = 0 ∨ i.val = 7 ∨ i.val = 56 ∨ i.val = 63 then some .rook
    else if i.val = 1 ∨ i.val = 6 ∨ i.val = 57 ∨ i.val = 62 then some .knight
    else if i.val = 2 ∨ i.val = 5 ∨ i.val = 58 ∨ i.val = 61 then some .bishop
    else if i.val = 3 ∨ i.val = 59 then some .queen
    else if i.val = 4 ∨ i.val = 60 then some .king
    else if (8 ≤ i.val ∧ i.val ≤ 15) ∨ (48 ≤ i.val ∧ i.val ≤ 55) then some .pawn
    else none
  colors := fun i =>
    if i.val ≤ 15 then some .white
    else if 48 ≤ i.val then some .black
    else none
  to_move := .white
  can_white_king_side_castle := true
  can_black_king_side_castle := true
  can_white_queen_side_castle := true
  can_black_queen_side_castle := true
  en_passant_square := none
  half_move_clock := 0
  full_move_number := 1

/-- `MoveGenerator::precompute_move_data` expressed pointwise: for a square
with the given rank and file, the number of squares to the board edge in
each of the 8 ray directions (N, S, W, E, NW, SE, NE, SW), exactly the
formulas the Rust precomputation stores at `rank * 8 + file`. -/
def num_squares_to_edge (square : Nat) (d : Nat) : Nat :=
  let rank := square / 8
  let file := square % 8
  match d with
  | 0 => 7 - rank
  | 1 => rank
  | 2 => file
  | 3 => 7 - file
  | 4 => min (7 - rank) file
  | 5 => min rank (7 - file)
  | 6 => min (7 - rank) (7 - file)
  | _ => min rank file

/-- `direction_offsets: [8, -8, -1, 1, 7, -7, 9, -9]`. -/
def direction_offsets (d : Nat) : Int :=
  match d with
  | 0 => 8
  | 1 => -8
  | 2 => -1
  | 3 => 1
  | 4 => 7
  | 5 => -7
  | 6 => 9
  | _ => -9

/-- The inner loop of `generate_sliding_moves` for one direction `d`:
`steps` enumerates `n = 0, 1, ...` up to the edge distance; the stepped-to
square's color decides between capture-and-stop, friendly block, or
emit-and-continue. -/
def slideRay (b : Board) (start_square : Nat) (d : Nat) :
    List Nat → Outcome (List Move)
  | [] => .ok []
  | n :: rest =>
    let target_square :=
      castUsize ((start_square : Int) + direction_offsets d * ((n : Int) + 1))
    (b.colorAt target_square).bind fun color_on_target_square =>
      match color_on_target_square with
      | some color =>
        if color ≠ b.to_move then .ok [⟨start_square, target_square⟩]
        else .ok []
      | none =>
        (slideRay b start_square d rest).map
          fun ms => ⟨start_square, target_square⟩ :: ms

/-- The direction loop of `generate_sliding_moves`. -/
def slideDirs (b : Board) (start_square : Nat) : List Nat → Outcome (List Move)
  | [] => .ok []
  | d :: ds =>
    (slideRay b start_square d
        (List.range (num_squares_to_edge start_square d))).bind fun ms =>
      (slideDirs b start_square ds).map fun ms' => ms ++ ms'

/-- `MoveGenerator::generate_sliding_moves`: the piece on the start square
(whose absence is an `expect` panic) selects the direction range — bishops
4..8, rooks 0..4, queens 0..8 — and each ray is walked to the first
blocker.  Returns the moves pushed onto `self.moves`, in push order. -/
def generate_sliding_moves (b : Board) (start_square : Nat) :
    Outcome (List Move) :=
  (b.squareAt start_square).bind fun sq =>
    match sq with
    | none => .panic
    | some piece =>
      let start_direction_index := if piece = .bishop then 4 else 0
      let end_direction_index := if piece = .rook then 4 else 8
      slideDirs b start_square
        ((List.range end_direction_index).drop start_direction_index)

/-- `knight_move_offsets = [-17, -15, -10, -6, 6, 10, 15, 17]`. -/
def knight_move_offsets : List Int := [-17, -15, -10, -6, 6, 10, 15, 17]

/-- One iteration of the `generate_knight_moves` loop: the candidate is
dropped when the flat target index leaves [0,64), when the rank or file
delta exceeds 2 (Rust isize division and remainder are `Int.tdiv` and
`Int.tmod`), or when the target holds a friendly piece. -/
def knightCandidate (b : Board) (start_square : Nat) (offset : Int) :
    Option Move :=
  let target_square : Int := (start_square : Int) + offset
  let starting_rank : Int := (start_square : Int).tdiv 8
  let starting_file : Int := (start_square : Int).tmod 8
  let target_rank : Int := target_square.tdiv 8
  let target_file : Int := target_square.tmod 8
  if 0 ≤ target_square ∧ target_square < 64 then
    if (target_rank - starting_rank).natAbs > 2 ∨
        (target_file - starting_file).natAbs > 2 then none
    else
      match b.colorGet target_square.toNat with
      | none => some ⟨start_square, target_square.toNat⟩
      | some color =>
        if color ≠ b.to_move then some ⟨start_square, target_square.toNat⟩
        else none
  else none

/-- `MoveGenerator::generate_knight_moves`: all eight offsets in order,
keeping the candidates that survive the checks.  Never panics (the only
array access is guarded by the bounds check). -/
def generate_knight_moves (b : Board) (start_square : Nat) : List Move :=
  knight_move_offsets.filterMap (knightCandidate b start_square)

/-- The `pawn_move_offsets` array: `[8, 16, 7, 9]` for White and the
negations for Black; `pawnOffset c i` is `pawn_move_offsets[i]`. -/
def pawnOffset (c : Color) (i : Nat) : Int :=
  match c, i with
  | .white, 0 => 8
  | .white, 1 => 16
  | .white, 2 => 7
  | .white, _ => 9
  | .black, 0 => -8
  | .black, 1 => -16
  | .black, 2 => -7
  | .black, _ => -9

/-- One capture-offset iteration of `generate_pawn_moves`: the colors array
is indexed at `start + offset` cast to usize (a panic when that leaves the
board), and a capture is pushed when it holds an opposing piece and the
file delta is exactly 1. -/
def pawnCaptureAt (b : Board) (start_square : Nat) (offset : Int) :
    Outcome (List Move) :=
  let capture_index : Int := (start_square : Int) + offset
  let starting_file : Int := (start_square : Int).tmod 8
  let target_file : Int := capture_index.tmod 8
  (b.colorAt (castUsize capture_index)).bind fun col =>
    match col with
    | some c =>
      if c ≠ b.to_move ∧ (target_file - starting_file).natAbs = 1 then
        .ok [⟨start_square, castUsize capture_index⟩]
      else .ok []
    | none => .ok []

/-- `MoveGenerator::generate_pawn_moves`, in the Rust order: the
one-square-forward lookup (an unchecked index — a pawn on its farthest
rank panics here), the non-promotion push, the two capture offsets, then
the double push gated on the home rank and both squares ahead being
empty. -/
def generate_pawn_moves (b : Board) (start_square : Nat) :
    Outcome (List Move) :=
  let target_one_up_index : Int := (start_square : Int) + pawnOffset b.to_move 0
  let target_one_up_rank : Int := target_one_up_index.tdiv 8
  (b.squareAt (castUsize target_one_up_index)).bind fun one_up_square =>
  let can_move_up_one_rank := one_up_square.isNone
  let push_moves : List Move :=
    if can_move_up_one_rank then
      if ¬(target_one_up_rank = 0 ∨ target_one_up_rank = 7) then
        [⟨start_square, castUsize target_one_up_index⟩]
      else []
    else []
  (pawnCaptureAt b start_square (pawnOffset b.to_move 2)).bind fun cap1 =>
  (pawnCaptureAt b start_square (pawnOffset b.to_move 3)).bind fun cap2 =>
  if ¬can_move_up_one_rank then .ok (push_moves ++ cap1 ++ cap2)
  else
    let starting_rank := start_square / 8
    let has_moved :=
      (starting_rank ≠ 1 ∧ b.to_move = .white) ∨
      (starting_rank ≠ 6 ∧ b.to_move = .black)
    if has_moved then .ok (push_moves ++ cap1 ++ cap2)
    else
      let target_two_up_index : Int :=
        (start_square : Int) + pawnOffset b.to_move 1
      (b.squareAt (castUsize target_two_up_index)).bind fun two_up_square =>
        .ok (push_moves ++ cap1 ++ cap2 ++
          (if two_up_square.isNone then
            [⟨start_square, castUsize target_two_up_index⟩]
          else []))

/-- The per-square dispatch of `generate_moves`: empty squares and pieces
of the color not to move are skipped; a square whose color is set but
whose piece is absent is the `expect` panic; sliding pieces, knights and
pawns go to their generators; kings (the `_` arm) produce nothing. -/
def dispatchSquare (b : Board) (square : Fin 64) : Outcome (List Move) :=
  match b.colors square with
  | none => .ok []
  | some color =>
    if color ≠ b.to_move then .ok []
    else
      match b.squares square with
      | none => .panic
      | some piece =>
        match piece with
        | .queen | .rook | .bishop => generate_sliding_moves b square
        | .knight => .ok (generate_knight_moves b square)
        | .pawn => generate_pawn_moves b square
        | .king => .ok []

/-- The square loop of `generate_moves`, appending each square's pushes. -/
def genSquares (b : Board) : List (Fin 64) → Outcome (List Move)
  | [] => .ok []
  | sq :: rest =>
    (dispatchSquare b sq).bind fun ms =>
      (genSquares b rest).map fun ms' => ms ++ ms'

/-- `MoveGenerator::generate_moves` on a freshly built generator
(`MoveGenerator::new`, whose `moves` vector starts empty).  The first
component is the function's return value — the local `moves` vector the
Rust code creates and never pushes to — and the second is the content of
`self.moves` after the call. -/
def generate_moves (b : Board) : Outcome (List Move × List Move) :=
  (genSquares b (List.finRange 64)).map fun acc => (([] : List Move), acc)

/-! Scenario boards used by individual claims, set up square-by-square the
way the repository's tests use `Board::put_piece` (which stores the piece
and its color and touches nothing else). -/

/-- Knight anti-wraparound scenario: a White knight on h1 (square 7), a
White king on a1 (square 0), a Black king on h8 (square 63), White to
move, no other pieces. -/
def knightCornerBoard : Board :=
  { defaultBoard with
    squares := fun i =>
      if i.val = 0 then some .king
      else if i.val = 7 then some .knight
      else if i.val = 63 then some .king
      else none
    colors := fun i =>
      if i.val = 0 ∨ i.val = 7 then some .white
      else if i.val = 63 then some .black
      else none }

/-- Pawn file-wraparound scenario: a White pawn on h4 (square 31), Black
pawns on g5 (square 38) and a6 (square 40), a White king on h1 and a Black
king on h8, White to move. -/
def pawnH4Board : Board :=
  { defaultBoard with
    squares := fun i =>
      if i.val = 7 then some .king
      else if i.val = 31 then some .pawn
      else if i.val = 38 ∨ i.val = 40 then some .pawn
      else if i.val = 63 then some .king
      else none
    colors := fun i =>
      if i.val = 7 ∨ i.val = 31 then some .white
      else if i.val = 38 ∨ i.val = 40 ∨ i.val = 63 then some .black
      else none }

/-- A White pawn on h7 (square 55) with a Black knight on g8 (square 62),
a White king on a1 and a Black king on h8, White to move: the +9 capture
offset of the h7 pawn indexes the colors array at 64. -/
def pawnH7Board : Board :=
  { defaultBoard with
    squares := fun i =>
      if i.val = 0 then some .king
      else if i.val = 55 then some .pawn
      else if i.val = 62 then some .knight
      else if i.val = 63 then some .king
      else none
    colors := fun i =>
      if i.val = 0 ∨ i.val = 55 then some .white
      else if i.val = 62 ∨ i.val = 63 then some .black
      else none }

/-- A lone White pawn on a8 (square 56), White to move: a pawn of the side
to move on its farthest rank. -/
def pawnRank8Board : Board :=
  { defaultBoard with
    squares := fun i => if i.val = 56 then some .pawn else none
    colors := fun i => if i.val = 56 then some .white else none }

/-- Syntactic well-formedness of a placement field, mirroring the panic
sites of the `from_fen` placement loop: no ninth rank (a '/' at rank 0)
and no piece placed at a flat index of 64 or more.  A character that the
loop would reject with `InvalidPieceSymbol` ends the simulation, since the
Rust loop returns that error before reaching any later panic. -/
def placementOk : List Char → Nat → Nat → Bool
  | [], _, _ => true
  | c :: cs, file, rank =>
    if c = '/' then
      decide (rank ≠ 0) && placementOk cs 0 (rank - 1)
    else if isFenDigit c then
      placementOk cs (file + (c.toNat - 48)) rank
    else
      match pieceOfChar c with
      | some _ => decide (rank * 8 + file < 64) && placementOk cs (file + 1) rank
      | none => true

/-- The six `BoardError` messages the parsing layer can produce
(`InvalidPieceSymbol`, `InvalidActiveColor`, `InvalidCastlingRights`,
`InvalidHalfmoveClock`, `InvalidFullmoveNumber`, `InvalidSquare` — the
last one with the offending field interpolated). -/
def typedErr (msg : String) : Prop :=
  msg = "invalid piece symbol in FEN" ∨
  msg = "failed to parse active board color, must be 'b' or 'w'." ∨
  msg = "invalid castling rights in fen, must be a combination of 'K', 'Q', 'k', and 'q' or '-'" ∨
  msg = "failed to parse half move clock from fen" ∨
  msg = "failed to parse full move number from fen" ∨
  ∃ s, msg = "Invalid square string: " ++ s

/-- The invariants `from_fen` guarantees about any board it returns: the
piece and color arrays are `none` on exactly the same squares, the
en-passant index (when present) is on the board, and both clocks fit in
32 bits. -/
def BoardWF (b : Board) : Prop :=
  (∀ i, b.squares i = none ↔ b.colors i = none) ∧
  (∀ sq, b.en_passant_square = some sq → sq < 64) ∧
  b.half_move_clock < 4294967296 ∧
  b.full_move_number < 4294967296

/-- The board that `from_fen "Qr5k/r7/2N5/8/8/8/8/6K1 w - - 0 1"` decodes
(sliding-blockade scenario): extracted with a default for the statement of
the corresponding theorem. -/
def cornerQueenBoard : Board :=
  (from_fen "Qr5k/r7/2N5/8/8/8/8/6K1 w - - 0 1").getOk defaultBoard

/-- The twenty pseudo-legal moves of the starting position, in the push
order of the generator (knights b1, g1, then the sixteen pawn moves). -/
def startingMoves : List Move :=
  [⟨1, 16⟩, ⟨1, 18⟩, ⟨6, 21⟩, ⟨6, 23⟩,
   ⟨8, 16⟩, ⟨8, 24⟩, ⟨9, 17⟩, ⟨9, 25⟩, ⟨10, 18⟩, ⟨10, 26⟩,
   ⟨11, 19⟩, ⟨11, 27⟩, ⟨12, 20⟩, ⟨12, 28⟩, ⟨13, 21⟩, ⟨13, 29⟩,
   ⟨14, 22⟩, ⟨14, 30⟩, ⟨15, 23⟩, ⟨15, 31⟩]

/-- The piece array produced by replaying board `b`'s run-length encoding
over squares `[lo, hi)` on top of an accumulator array `g`: occupied
squares of `b` in that window take `b`'s values, everything else keeps
`g`'s (used to state what the placement parser builds). -/
def overlayP (b : Board) (g : Fin 64 → Option Piece) (lo hi : Nat) :
    Fin 64 → Option Piece :=
  fun i =>
    if lo ≤ i.val ∧ i.val < hi ∧ b.squares i ≠ none then b.squares i else g i

/-- Color-array companion of `overlayP`. -/
def overlayC (b : Board) (g : Fin 64 → Option Color) (lo hi : Nat) :
    Fin 64 → Option Color :=
  fun i =>
    if lo ≤ i.val ∧ i.val < hi ∧ b.colors i ≠ none then b.colors i else g i

/-! ### Basic lemmas about `Outcome` sequencing -/

theorem Outcome.bind_eq_ok_iff {α β : Type} {x : Outcome α} {f : α → Outcome β}
    {b : β} : x.bind f = .ok b ↔ ∃ a, x = .ok a ∧ f a = .ok b := by
  cases x <;> simp [Outcome.bind]

theorem Outcome.bind_eq_err_iff {α β : Type} {x : Outcome α} {f : α → Outcome β}
    {m : String} : x.bind f = .err m ↔
      x = .err m ∨ ∃ a, x = .ok a ∧ f a = .err m := by
  cases x <;> simp [Outcome.bind]

theorem Outcome.bind_eq_panic_iff {α β : Type} {x : Outcome α}
    {f : α → Outcome β} : x.bind f = .panic ↔
      x = .panic ∨ ∃ a, x = .ok a ∧ f a = .panic := by
  cases x <;> simp [Outcome.bind]

theorem Outcome.map_eq_ok_iff {α β : Type} {g : α → β} {x : Outcome α}
    {b : β} : x.map g = .ok b ↔ ∃ a, x = .ok a ∧ g a = b := by
  cases x <;> simp [Outcome.map]

theorem Outcome.ok_bind {α β : Type} {a : α} {f : α → Outcome β} :
    (Outcome.ok a).bind f = f a := rfl

theorem Outcome.map_eq_panic_iff {α β : Type} {g : α → β} {x : Outcome α} :
    x.map g = .panic ↔ x = .panic := by
  cases x <;> simp [Outcome.map]

/-! ### Closed evaluations settling individual claims -/

/-- C1: `generate_moves` on the position produced by
`Board::starting_position` returns the empty local vector it allocates and
never pushes to, while the per-square dispatch accumulates the twenty
pseudo-legal opening moves in `self.moves`; the dispatched move a2→a3
(square 8 to 16) therefore does not appear in the returned collection. -/
theorem generate_moves_return_value_is_empty :
    from_fen startingFen = .ok starting_board ∧
    generate_moves starting_board = .ok (([] : List Move), startingMoves) ∧
    Move.mk 8 16 ∈ startingMoves ∧
    Move.mk 8 16 ∉ ([] : List Move) :=
  ⟨by decide, by decide, by decide, by decide⟩

/-- C4: decoding "Qr5k/r7/2N5/8/8/8/8/6K1 w - - 0 1" and generating
sliding moves from a8 (square 56) yields exactly the three moves a8→a7
(capture of the black rook, stopping the south ray), a8→b8 (capture of the
black rook, stopping the east ray) and a8→b7 (empty diagonal square, with
the ray stopped at the friendly knight on c6): blocking is decided by the
blocker's color, not by mere occupancy. -/
theorem sliding_moves_from_corner_blockade :
    from_fen "Qr5k/r7/2N5/8/8/8/8/6K1 w - - 0 1" = .ok cornerQueenBoard ∧
    generate_sliding_moves cornerQueenBoard 56 =
      .ok [⟨56, 48⟩, ⟨56, 57⟩, ⟨56, 49⟩] :=
  ⟨by decide, by decide⟩

/-- C2 counterexample: `from_fen` does not return a typed error on every
input — it panics (index out of bounds or rank underflow) on an input with
fewer than six whitespace-separated fields, on a placement with more than
eight ranks, and on a rank overflowing eight files. -/
theorem from_fen_panics_on_malformed_input :
    from_fen "" = .panic ∧
    from_fen "8/8/8/8/8/8/8/8/8 w - - 0 1" = .panic ∧
    from_fen "ppppppppp/8/8/8/8/8/8/8 w - - 0 1" = .panic :=
  ⟨by decide, by decide, by decide⟩

/-- C5 counterexample: `from_fen` accepts a full-move field of 0 (the u32
parse succeeds and no positivity check follows), producing a Position
whose full-move number is not at least 1. -/
theorem from_fen_accepts_full_move_zero :
    from_fen "8/8/8/8/8/8/8/8 w - - 0 0" =
      .ok { defaultBoard with full_move_number := 0 } ∧
    ({ defaultBoard with full_move_number := 0 } : Board).full_move_number
      = 0 :=
  ⟨by decide, by decide⟩

/-- C6 counterexample: knight generation does not discard a candidate
*exactly* when the flat index leaves [0,64) or a delta exceeds 2 — on the
starting position the g1 knight's candidate e2 (square 12 = 6 + 6) is in
bounds with rank delta 1 and file delta 2, yet it is discarded because e2
holds a friendly pawn. -/
theorem knight_discards_friendly_target_in_bounds :
    ((6 : Int) + 6 ∈ knight_move_offsets.map (fun off => (6 : Int) + off)) ∧
    (0 : Int) ≤ 6 + 6 ∧ ((6 : Int) + 6) < 64 ∧
    ((((6 : Int) + 6).tdiv 8 - (6 : Int).tdiv 8).natAbs ≤ 2 ∧
     (((6 : Int) + 6).tmod 8 - (6 : Int).tmod 8).natAbs ≤ 2) ∧
    Move.mk 6 12 ∉ generate_knight_moves starting_board 6 :=
  ⟨by decide, by decide, by decide, ⟨by decide, by decide⟩, by decide⟩

/-- C7 counterexample: a pawn diagonal capture is not generated *exactly*
when the target holds an opposing piece at file delta 1 — for the White
pawn on h7 (square 55) with a Black knight on g8 (square 62 = 55 + 7,
file delta 1), pawn generation panics on the other capture offset
(55 + 9 = 64 indexes past the colors array) and emits no move list at
all, so the capture h7→g8 is never generated. -/
theorem pawn_capture_lost_to_out_of_bounds_panic :
    pawnH7Board.to_move = .white ∧
    (55 : Int) + pawnOffset pawnH7Board.to_move 2 = 62 ∧
    pawnH7Board.colors ⟨62, by omega⟩ = some .black ∧
    (((62 : Int).tmod 8) - ((55 : Int).tmod 8)).natAbs = 1 ∧
    generate_pawn_moves pawnH7Board 55 = .panic :=
  ⟨by decide, by decide, by decide, by decide, by decide⟩

/-- C8 counterexample: `move_piece` applied to a move whose source equals
its target does not leave the moved pair on the target square — the
source-clearing write overwrites the placement, so the square ends empty
(here a2→a2 on the starting position deletes the a2 pawn). -/
theorem move_piece_same_square_deletes_piece :
    starting_board.squares ⟨8, by omega⟩ = some .pawn ∧
    move_piece starting_board ⟨8, 8⟩ =
      .ok ((move_piece starting_board ⟨8, 8⟩).getOk defaultBoard) ∧
    ((move_piece starting_board ⟨8, 8⟩).getOk defaultBoard).squares
      ⟨8, by omega⟩ = none :=
  ⟨by decide, by decide, by decide⟩

/-- C10: pawn generation is not total when a pawn of the side to move
stands on its farthest rank — for a White pawn on rank 8 (or a Black pawn
on rank 1) the one-square-forward lookup computes a flat index outside
[0,64), and `generate_pawn_moves` hits that unchecked array access and
panics. -/
theorem pawn_on_farthest_rank_panics (b : Board) (s : Nat) (h64 : s < 64)
    (_hpawn : b.squares ⟨s, h64⟩ = some .pawn)
    (_hcol : b.colors ⟨s, h64⟩ = some b.to_move)
    (hrank : (b.to_move = .white ∧ s / 8 = 7) ∨
             (b.to_move = .black ∧ s / 8 = 0)) :
    ¬ castUsize ((s : Int) + pawnOffset b.to_move 0) < 64 ∧
    generate_pawn_moves b s = .panic := by
  have hoob : ¬ castUsize ((s : Int) + pawnOffset b.to_move 0) < 64 := by
    rcases hrank with ⟨hw, hr⟩ | ⟨hb, hr⟩
    · rw [hw]; simp only [pawnOffset, castUsize]; omega
    · rw [hb]; simp only [pawnOffset, castUsize]; omega
  refine ⟨hoob, ?_⟩
  simp only [generate_pawn_moves, Board.squareAt, dif_neg hoob, Outcome.bind]

/-- Witness for C10: a lone White pawn on a8 (square 56) with White to
move makes `generate_pawn_moves` panic. -/
theorem pawn_on_farthest_rank_panics_witness :
    ¬ castUsize ((56 : Int) + pawnOffset pawnRank8Board.to_move 0) < 64 ∧
    generate_pawn_moves pawnRank8Board 56 = .panic :=
  pawn_on_farthest_rank_panics pawnRank8Board 56 (by omega) (by decide)
    (by decide) (Or.inl ⟨by decide, by decide⟩)

/-! ### Source squares of generated moves (towards C9) -/

theorem slideRay_sources (b : Board) (s d : Nat) :
    ∀ (steps : List Nat) (ms : List Move), slideRay b s d steps = .ok ms →
      ∀ m ∈ ms, m.starting_square = s := by
  intro steps
  induction steps with
  | nil =>
    intro ms h m hm
    simp only [slideRay] at h
    cases h
    simp at hm
  | cons n rest ih =>
    intro ms h m hm
    simp only [slideRay] at h
    rcases Outcome.bind_eq_ok_iff.mp h with ⟨copt, _, h2⟩
    cases copt with
    | some color =>
      dsimp only at h2
      by_cases hc : color ≠ b.to_move
      · rw [if_pos hc] at h2
        cases h2
        rcases List.mem_singleton.mp hm with rfl
        rfl
      · rw [if_neg hc] at h2
        cases h2
        simp at hm
    | none =>
      rcases Outcome.map_eq_ok_iff.mp h2 with ⟨ms', hms', rfl⟩
      rcases List.mem_cons.mp hm with rfl | hm'
      · rfl
      · exact ih ms' hms' m hm'

theorem slideDirs_sources (b : Board) (s : Nat) :
    ∀ (ds : List Nat) (ms : List Move), slideDirs b s ds = .ok ms →
      ∀ m ∈ ms, m.starting_square = s := by
  intro ds
  induction ds with
  | nil =>
    intro ms h m hm
    simp only [slideDirs] at h
    cases h
    simp at hm
  | cons d rest ih =>
    intro ms h m hm
    simp only [slideDirs] at h
    rcases Outcome.bind_eq_ok_iff.mp h with ⟨ms1, h1, h2⟩
    rcases Outcome.map_eq_ok_iff.mp h2 with ⟨ms2, hms2, rfl⟩
    rcases List.mem_append.mp hm with hm1 | hm2
    · exact slideRay_sources b s d _ ms1 h1 m hm1
    · exact ih ms2 hms2 m hm2

theorem generate_sliding_moves_sources (b : Board) (s : Nat)
    (ms : List Move) (h : generate_sliding_moves b s = .ok ms) :
    ∀ m ∈ ms, m.starting_square = s := by
  simp only [generate_sliding_moves] at h
  rcases Outcome.bind_eq_ok_iff.mp h with ⟨sq, _, h2⟩
  cases sq with
  | none => cases h2
  | some piece => exact slideDirs_sources b s _ ms h2

theorem generate_knight_moves_sources (b : Board) (s : Nat) :
    ∀ m ∈ generate_knight_moves b s, m.starting_square = s := by
  intro m hm
  rcases List.mem_filterMap.mp hm with ⟨off, _, hc⟩
  simp only [knightCandidate] at hc
  split at hc
  · split at hc
    · cases hc
    · split at hc
      · cases hc; rfl
      · split at hc
        · cases hc; rfl
        · cases hc
  · cases hc

theorem pawnCaptureAt_sources (b : Board) (s : Nat) (off : Int)
    (ms : List Move) (h : pawnCaptureAt b s off = .ok ms) :
    ∀ m ∈ ms, m.starting_square = s := by
  simp only [pawnCaptureAt] at h
  rcases Outcome.bind_eq_ok_iff.mp h with ⟨copt, _, h2⟩
  cases copt with
  | some c =>
    dsimp only at h2
    split at h2 <;> cases h2
    · intro m hm
      rcases List.mem_singleton.mp hm with rfl
      rfl
    · intro m hm; simp at hm
  | none =>
    cases h2
    intro m hm; simp at hm

theorem generate_pawn_moves_sources (b : Board) (s : Nat)
    (ms : List Move) (h : generate_pawn_moves b s = .ok ms) :
    ∀ m ∈ ms, m.starting_square = s := by
  simp only [generate_pawn_moves] at h
  rcases Outcome.bind_eq_ok_iff.mp h with ⟨sq1, _, h2⟩
  rcases Outcome.bind_eq_ok_iff.mp h2 with ⟨cap1, hcap1, h3⟩
  rcases Outcome.bind_eq_ok_iff.mp h3 with ⟨cap2, hcap2, h4⟩
  have hc1 := pawnCaptureAt_sources b s _ cap1 hcap1
  have hc2 := pawnCaptureAt_sources b s _ cap2 hcap2
  intro m hm
  by_cases hcan : sq1.isNone = true
  · rw [if_neg (not_not_intro hcan), if_pos hcan] at h4
    by_cases hmoved : (s / 8 ≠ 1 ∧ b.to_move = Color.white) ∨
        (s / 8 ≠ 6 ∧ b.to_move = Color.black)
    · rw [if_pos hmoved] at h4
      cases h4
      rcases List.mem_append.mp hm with hm' | hm2
      · rcases List.mem_append.mp hm' with hm0 | hm1
        · split at hm0
          · rcases List.mem_singleton.mp hm0 with rfl; rfl
          · simp at hm0
        · exact hc1 m hm1
      · exact hc2 m hm2
    · rw [if_neg hmoved] at h4
      rcases Outcome.bind_eq_ok_iff.mp h4 with ⟨sq2, _, h5⟩
      cases h5
      rcases List.mem_append.mp hm with hm' | hm3
      · rcases List.mem_append.mp hm' with hm'' | hm2
        · rcases List.mem_append.mp hm'' with hm0 | hm1
          · split at hm0
            · rcases List.mem_singleton.mp hm0 with rfl; rfl
            · simp at hm0
          · exact hc1 m hm1
        · exact hc2 m hm2
      · split at hm3
        · rcases List.mem_singleton.mp hm3 with rfl; rfl
        · simp at hm3
  · rw [if_pos hcan, if_neg hcan] at h4
    cases h4
    rcases List.mem_append.mp hm with hm' | hm2
    · rcases List.mem_append.mp hm' with hm0 | hm1
      · simp at hm0
      · exact hc1 m hm1
    · exact hc2 m hm2

theorem dispatchSquare_sources (b : Board) (sq : Fin 64) (ms : List Move)
    (h : dispatchSquare b sq = .ok ms) :
    ∀ m ∈ ms, m.starting_square = sq.val ∧ b.squares sq ≠ some .king := by
  intro m hm
  simp only [dispatchSquare] at h
  cases hcol : b.colors sq with
  | none => rw [hcol] at h; cases h; simp at hm
  | some color =>
    rw [hcol] at h
    by_cases hcmove : color ≠ b.to_move
    · dsimp only at h
      rw [if_pos hcmove] at h; cases h; simp at hm
    · dsimp only at h
      rw [if_neg hcmove] at h
      cases hsq : b.squares sq with
      | none => rw [hsq] at h; cases h
      | some piece =>
        rw [hsq] at h
        cases piece with
        | queen => exact ⟨generate_sliding_moves_sources b sq ms h m hm, by simp [hsq]⟩
        | rook => exact ⟨generate_sliding_moves_sources b sq ms h m hm, by simp [hsq]⟩
        | bishop => exact ⟨generate_sliding_moves_sources b sq ms h m hm, by simp [hsq]⟩
        | knight =>
          cases h
          exact ⟨generate_knight_moves_sources b sq m hm, by simp [hsq]⟩
        | pawn => exact ⟨generate_pawn_moves_sources b sq ms h m hm, by simp [hsq]⟩
        | king => cases h; simp at hm

theorem genSquares_sources (b : Board) :
    ∀ (sqs : List (Fin 64)) (ms : List Move), genSquares b sqs = .ok ms →
      ∀ m ∈ ms, ∃ sq ∈ sqs, ∃ ms', dispatchSquare b sq = .ok ms' ∧ m ∈ ms' := by
  intro sqs
  induction sqs with
  | nil =>
    intro ms h m hm
    simp only [genSquares] at h
    cases h
    simp at hm
  | cons sq rest ih =>
    intro ms h m hm
    simp only [genSquares] at h
    rcases Outcome.bind_eq_ok_iff.mp h with ⟨ms1, h1, h2⟩
    rcases Outcome.map_eq_ok_iff.mp h2 with ⟨ms2, hms2, rfl⟩
    rcases List.mem_append.mp hm with hm1 | hm2
    · exact ⟨sq, List.mem_cons_self sq rest, ms1, h1, hm1⟩
    · rcases ih ms2 hms2 m hm2 with ⟨sq', hsq', ms', hms', hm'⟩
      exact ⟨sq', List.mem_cons_of_mem sq hsq', ms', hms', hm'⟩

/-- C9: `generate_moves` never emits a move whose source square holds a
King — dispatch on a King square falls to the empty `_` arm, and every
move a sub-generator pushes has the dispatched square as its source, so no
move in the returned vector or in the accumulated `self.moves` starts on a
King of either color. -/
theorem generate_moves_never_moves_king (b : Board) (ret acc : List Move)
    (h : generate_moves b = .ok (ret, acc)) :
    ∀ m, m ∈ ret ∨ m ∈ acc → ∀ (h64 : m.starting_square < 64),
      b.squares ⟨m.starting_square, h64⟩ ≠ some .king := by
  simp only [generate_moves] at h
  rcases Outcome.map_eq_ok_iff.mp h with ⟨ms, hms, hpair⟩
  have hret : ret = [] := by cases hpair; rfl
  have hacc : ms = acc := by cases hpair; rfl
  subst hret
  subst hacc
  intro m hm h64
  rcases hm with hm | hm
  · simp at hm
  · rcases genSquares_sources b _ ms hms m hm with ⟨sq, _, ms', hms', hm'⟩
    rcases dispatchSquare_sources b sq ms' hms' m hm' with ⟨hstart, hking⟩
    have : (⟨m.starting_square, h64⟩ : Fin 64) = sq := by
      apply Fin.ext
      simpa using hstart
    rw [this]
    exact hking

/-- Witness for C9: on the starting position the accumulated move a2→a3 is
emitted and its source square does not hold a King. -/
theorem generate_moves_never_moves_king_witness :
    starting_board.squares ⟨8, by omega⟩ ≠ some Piece.king :=
  generate_moves_never_moves_king starting_board [] startingMoves
    (by decide) (Move.mk 8 16) (Or.inr (by decide)) (by decide)

/-- C8 (amended): for every Position with an occupied source square and
every move between two distinct on-board squares, `move_piece` places the
(piece, color) pair from the source onto the target (discarding whatever
occupied the target), clears the source, and flips the side to move,
while every other square and the castling rights, en-passant target,
half-move clock and full-move number are unchanged.  (When source and
target coincide the subsequent source-clear erases the placement, and an
off-board index panics — hence the distinctness and bounds hypotheses.) -/
theorem move_piece_frame (b : Board) (mv : Move)
    (hs : mv.starting_square < 64) (ht : mv.target_square < 64)
    (_hocc : (b.squares ⟨mv.starting_square, hs⟩).isSome = true)
    (hne : mv.starting_square ≠ mv.target_square) :
    ∃ b', move_piece b mv = .ok b' ∧
      b'.squares ⟨mv.target_square, ht⟩ = b.squares ⟨mv.starting_square, hs⟩ ∧
      b'.colors ⟨mv.target_square, ht⟩ = b.colors ⟨mv.starting_square, hs⟩ ∧
      b'.squares ⟨mv.starting_square, hs⟩ = none ∧
      b'.colors ⟨mv.starting_square, hs⟩ = none ∧
      b'.to_move = b.to_move.flip ∧
      (∀ i : Fin 64, i.val ≠ mv.starting_square → i.val ≠ mv.target_square →
        b'.squares i = b.squares i ∧ b'.colors i = b.colors i) ∧
      b'.can_white_king_side_castle = b.can_white_king_side_castle ∧
      b'.can_black_king_side_castle = b.can_black_king_side_castle ∧
      b'.can_white_queen_side_castle = b.can_white_queen_side_castle ∧
      b'.can_black_queen_side_castle = b.can_black_queen_side_castle ∧
      b'.en_passant_square = b.en_passant_square ∧
      b'.half_move_clock = b.half_move_clock ∧
      b'.full_move_number = b.full_move_number := by
  have htne : (⟨mv.target_square, ht⟩ : Fin 64) ≠ ⟨mv.starting_square, hs⟩ :=
    Fin.ne_of_val_ne (Ne.symm hne)
  simp only [move_piece, dif_pos hs, dif_pos ht]
  refine ⟨_, rfl, ?_, ?_, ?_, ?_, rfl, ?_, rfl, rfl, rfl, rfl, rfl, rfl, rfl⟩
  · simp only [Function.update_noteq htne, Function.update_same]
  · simp only [Function.update_noteq htne, Function.update_same]
  · simp only [Function.update_same]
  · simp only [Function.update_same]
  · intro i his hit
    have h1 : i ≠ (⟨mv.starting_square, hs⟩ : Fin 64) := Fin.ne_of_val_ne his
    have h2 : i ≠ (⟨mv.target_square, ht⟩ : Fin 64) := Fin.ne_of_val_ne hit
    constructor <;>
      simp only [Function.update_noteq h1, Function.update_noteq h2]

/-- Witness for C8: applying the frame theorem to a2→a4 on the starting
position. -/
theorem move_piece_frame_witness :
    ∃ b', move_piece starting_board ⟨8, 24⟩ = .ok b' ∧
      b'.squares ⟨24, by omega⟩ = starting_board.squares ⟨8, by omega⟩ ∧
      b'.colors ⟨24, by omega⟩ = starting_board.colors ⟨8, by omega⟩ ∧
      b'.squares ⟨8, by omega⟩ = none ∧
      b'.colors ⟨8, by omega⟩ = none ∧
      b'.to_move = starting_board.to_move.flip ∧
      (∀ i : Fin 64, i.val ≠ 8 → i.val ≠ 24 →
        b'.squares i = starting_board.squares i ∧
        b'.colors i = starting_board.colors i) ∧
      b'.can_white_king_side_castle = starting_board.can_white_king_side_castle ∧
      b'.can_black_king_side_castle = starting_board.can_black_king_side_castle ∧
      b'.can_white_queen_side_castle = starting_board.can_white_queen_side_castle ∧
      b'.can_black_queen_side_castle = starting_board.can_black_queen_side_castle ∧
      b'.en_passant_square = starting_board.en_passant_square ∧
      b'.half_move_clock = starting_board.half_move_clock ∧
      b'.full_move_number = starting_board.full_move_number :=
  move_piece_frame starting_board ⟨8, 24⟩ (by decide) (by decide) (by decide)
    (by decide)

/-- C6 (amended): knight generation discards a candidate target exactly
when its flat index lies outside [0,64), its absolute rank or file delta
from the source exceeds 2, or the target holds a piece of the side to
move (the third condition is the occupancy filter the original claim
omits); equivalently, a knight move s→t is emitted exactly when some
offset reaches t inside the board with both deltas at most 2 and t does
not hold a friendly piece.  In particular, for a White knight on h1 with
a White king on a1, a Black king on h8 and no other pieces, knight
generation from h1 produces exactly the 2 moves h1→f2 and h1→g3. -/
theorem knight_move_emitted_iff :
    (∀ (b : Board) (s t : Nat),
      Move.mk s t ∈ generate_knight_moves b s ↔
        ∃ off ∈ knight_move_offsets,
          (s : Int) + off = (t : Int) ∧
          t < 64 ∧
          ((t : Int).tdiv 8 - (s : Int).tdiv 8).natAbs ≤ 2 ∧
          ((t : Int).tmod 8 - (s : Int).tmod 8).natAbs ≤ 2 ∧
          b.colorGet t ≠ some b.to_move) ∧
    generate_knight_moves knightCornerBoard 7 = [⟨7, 13⟩, ⟨7, 22⟩] := by
  refine ⟨?_, by decide⟩
  intro b s t
  constructor
  · intro hm
    rcases List.mem_filterMap.mp hm with ⟨off, hoff, hc⟩
    refine ⟨off, hoff, ?_⟩
    simp only [knightCandidate] at hc
    split at hc
    case isFalse => cases hc
    case isTrue hb =>
      split at hc
      case isTrue => cases hc
      case isFalse hd =>
        have hb' : 0 ≤ (s : Int) + off ∧ (s : Int) + off < 64 := hb
        split at hc
        case h_1 hcol =>
          injection hc with hmv
          have htn : ((s : Int) + off).toNat = t := congrArg Move.target_square hmv
          have hteq : (s : Int) + off = (t : Int) := by omega
          rw [hteq] at hd
          rw [htn] at hcol
          push_neg at hd
          exact ⟨hteq, by omega, by omega, by omega, by rw [hcol]; simp⟩
        case h_2 color hcol =>
          split at hc
          case isTrue hcne =>
            injection hc with hmv
            have htn : ((s : Int) + off).toNat = t := congrArg Move.target_square hmv
            have hteq : (s : Int) + off = (t : Int) := by omega
            rw [hteq] at hd
            rw [htn] at hcol
            push_neg at hd
            refine ⟨hteq, by omega, by omega, by omega, ?_⟩
            rw [hcol]
            intro hcontra
            exact hcne (Option.some.inj hcontra)
          case isFalse => cases hc
  · rintro ⟨off, hoff, hteq, h64, hd1, hd2, hcolne⟩
    apply List.mem_filterMap.mpr
    refine ⟨off, hoff, ?_⟩
    simp only [knightCandidate]
    rw [if_pos (show 0 ≤ (s : Int) + off ∧ (s : Int) + off < 64 by omega)]
    rw [hteq]
    rw [if_neg (by push_neg; omega)]
    have htn : ((t : Int)).toNat = t := by omega
    rw [htn]
    cases hcv : b.colorGet t with
    | none => rfl
    | some color =>
      dsimp only
      rw [if_pos (show color ≠ b.to_move from
        fun hcontra => hcolne (by rw [hcv, hcontra]))]

/-! ### Pawn capture characterization (towards C7) -/

theorem pawnCaptureAt_ok_shape (b : Board) (s : Nat) (off : Int)
    (ms : List Move) (h : pawnCaptureAt b s off = .ok ms) :
    castUsize ((s : Int) + off) < 64 ∧
    (ms = [] ∨ ms = [⟨s, castUsize ((s : Int) + off)⟩]) := by
  simp only [pawnCaptureAt] at h
  rcases Outcome.bind_eq_ok_iff.mp h with ⟨copt, hc, h2⟩
  have h64 : castUsize ((s : Int) + off) < 64 := by
    by_cases hx : castUsize ((s : Int) + off) < 64
    · exact hx
    · rw [Board.colorAt, dif_neg hx] at hc; cases hc
  refine ⟨h64, ?_⟩
  cases copt with
  | some c =>
    dsimp only at h2
    split at h2
    · cases h2; right; rfl
    · cases h2; left; rfl
  | none => cases h2; left; rfl

theorem pawnCaptureAt_mem_iff (b : Board) (s t : Nat) (off : Int)
    (ms : List Move) (h : pawnCaptureAt b s off = .ok ms)
    (hteq : (s : Int) + off = (t : Int)) :
    Move.mk s t ∈ ms ↔
      t < 64 ∧ (∃ c, b.colorGet t = some c ∧ c ≠ b.to_move) ∧
      ((t : Int).tmod 8 - (s : Int).tmod 8).natAbs = 1 := by
  by_cases ht2 : t < 18446744073709551616
  case neg =>
    have hshape := pawnCaptureAt_ok_shape b s off ms h
    constructor
    · intro hmem
      rcases hshape.2 with rfl | rfl
      · simp at hmem
      · rcases List.mem_singleton.mp hmem with heq
        have := congrArg Move.target_square heq
        simp only at this
        omega
    · rintro ⟨h64, _⟩
      omega
  case pos =>
  have hcast : castUsize ((t : Nat) : Int) = t := by
    simp only [castUsize]; omega
  have h64 := (pawnCaptureAt_ok_shape b s off ms h).1
  rw [hteq, hcast] at h64
  simp only [pawnCaptureAt] at h
  rw [hteq, hcast] at h
  rw [Board.colorAt, dif_pos h64] at h
  rw [Outcome.ok_bind] at h
  have hget : b.colorGet t = b.colors ⟨t, h64⟩ := by
    rw [Board.colorGet, dif_pos h64]
  cases hcv : b.colors ⟨t, h64⟩ with
  | none =>
    rw [hcv] at h
    cases h
    simp only [List.not_mem_nil, false_iff, not_and]
    intro _
    rintro ⟨c, hcget, _⟩
    rw [hget, hcv] at hcget
    cases hcget
  | some c =>
    rw [hcv] at h
    dsimp only at h
    split at h
    case isTrue hcond =>
      cases h
      simp only [List.mem_singleton, Move.mk.injEq, true_and]
      constructor
      · intro hmt
        exact ⟨h64, ⟨c, by rw [hget, hcv], hcond.1⟩, hcond.2⟩
      · intro _; trivial
    case isFalse hcond =>
      cases h
      simp only [List.not_mem_nil, false_iff, not_and]
      intro _
      rintro ⟨c2, hcget, hcne⟩
      rw [hget, hcv] at hcget
      cases Option.some.inj hcget
      intro hdelta
      exact hcond ⟨hcne, hdelta⟩

theorem generate_pawn_moves_ok_decomp (b : Board) (s : Nat)
    (ms : List Move) (h : generate_pawn_moves b s = .ok ms) :
    ∃ push cap1 cap2 dbl,
      pawnCaptureAt b s (pawnOffset b.to_move 2) = .ok cap1 ∧
      pawnCaptureAt b s (pawnOffset b.to_move 3) = .ok cap2 ∧
      ms = push ++ cap1 ++ cap2 ++ dbl ∧
      (∀ m ∈ push,
        m.target_square = castUsize ((s : Int) + pawnOffset b.to_move 0)) ∧
      (∀ m ∈ dbl,
        m.target_square = castUsize ((s : Int) + pawnOffset b.to_move 1)) := by
  simp only [generate_pawn_moves] at h
  rcases Outcome.bind_eq_ok_iff.mp h with ⟨sq1, _, h2⟩
  rcases Outcome.bind_eq_ok_iff.mp h2 with ⟨cap1, hcap1, h3⟩
  rcases Outcome.bind_eq_ok_iff.mp h3 with ⟨cap2, hcap2, h4⟩
  by_cases hcan : sq1.isNone = true
  · rw [if_neg (not_not_intro hcan), if_pos hcan] at h4
    by_cases hmoved : (s / 8 ≠ 1 ∧ b.to_move = Color.white) ∨
        (s / 8 ≠ 6 ∧ b.to_move = Color.black)
    · rw [if_pos hmoved] at h4
      cases h4
      refine ⟨_, cap1, cap2, [], hcap1, hcap2,
        (List.append_nil _).symm, ?_, by simp⟩
      intro m hm
      split at hm
      · rcases List.mem_singleton.mp hm with rfl; rfl
      · simp at hm
    · rw [if_neg hmoved] at h4
      rcases Outcome.bind_eq_ok_iff.mp h4 with ⟨sq2, _, h5⟩
      cases h5
      refine ⟨_, cap1, cap2, _, hcap1, hcap2, rfl, ?_, ?_⟩
      · intro m hm
        split at hm
        · rcases List.mem_singleton.mp hm with rfl; rfl
        · simp at hm
      · intro m hm
        split at hm
        · rcases List.mem_singleton.mp hm with rfl; rfl
        · simp at hm
  · rw [if_pos hcan, if_neg hcan] at h4
    cases h4
    exact ⟨[], cap1, cap2, [], hcap1, hcap2, by simp, by simp, by simp⟩

/-- C7 (amended): when `generate_pawn_moves` completes without panicking,
a diagonal capture to an offset candidate t is emitted exactly when t lies
on the board, holds a piece of the opposing color, and the absolute file
delta between source and target is exactly 1; when a capture offset's
flat index leaves the board the generator panics and emits no move list
at all.  In particular, for a White pawn on h4 with Black pawns on g5 and
a6 (kings on h1 and h8), pawn generation from h4 produces exactly 2
moves: the push h4→h5 and the capture h4→g5, never a move to a6. -/
theorem pawn_capture_emitted_iff :
    (∀ (b : Board) (s t : Nat) (ms : List Move), s < 64 →
      generate_pawn_moves b s = .ok ms →
      ((s : Int) + pawnOffset b.to_move 2 = (t : Int) ∨
       (s : Int) + pawnOffset b.to_move 3 = (t : Int)) →
      (Move.mk s t ∈ ms ↔
        t < 64 ∧ (∃ c, b.colorGet t = some c ∧ c ≠ b.to_move) ∧
        ((t : Int).tmod 8 - (s : Int).tmod 8).natAbs = 1)) ∧
    generate_pawn_moves pawnH4Board 31 = .ok [⟨31, 39⟩, ⟨31, 38⟩] := by
  refine ⟨?_, by decide⟩
  intro b s t ms hs h hdisj
  rcases generate_pawn_moves_ok_decomp b s ms h with
    ⟨push, cap1, cap2, dbl, hcap1, hcap2, rfl, hpush, hdbl⟩
  have hpush_ne : ∀ m ∈ push, m.target_square ≠ t := by
    intro m hm
    rw [hpush m hm]
    cases hco : b.to_move <;>
      rcases hdisj with hteq | hteq <;>
      rw [hco] at hteq <;>
      simp only [pawnOffset, castUsize] at hteq ⊢ <;> omega
  have hdbl_ne : ∀ m ∈ dbl, m.target_square ≠ t := by
    intro m hm
    rw [hdbl m hm]
    cases hco : b.to_move <;>
      rcases hdisj with hteq | hteq <;>
      rw [hco] at hteq <;>
      simp only [pawnOffset, castUsize] at hteq ⊢ <;> omega
  rcases hdisj with hteq | hteq
  · have hiff := pawnCaptureAt_mem_iff b s t _ cap1 hcap1 hteq
    have hnotin2 : Move.mk s t ∉ cap2 := by
      intro hmem
      rcases (pawnCaptureAt_ok_shape b s _ cap2 hcap2).2 with rfl | rfl
      · simp at hmem
      · rcases List.mem_singleton.mp hmem with heq
        injection heq with h1 h2
        cases hco : b.to_move <;>
          rw [hco] at hteq h2 <;>
          simp only [pawnOffset, castUsize] at hteq h2 <;> omega
    constructor
    · intro hmem
      rcases List.mem_append.mp hmem with hmem1 | hmem_dbl
      · rcases List.mem_append.mp hmem1 with hmem2 | hmem_c2
        · rcases List.mem_append.mp hmem2 with hmem_push | hmem_c1
          · exact absurd rfl (hpush_ne _ hmem_push)
          · exact hiff.mp hmem_c1
        · exact absurd hmem_c2 hnotin2
      · exact absurd rfl (hdbl_ne _ hmem_dbl)
    · intro hrhs
      exact List.mem_append.mpr (Or.inl (List.mem_append.mpr (Or.inl
        (List.mem_append.mpr (Or.inr (hiff.mpr hrhs))))))
  · have hiff := pawnCaptureAt_mem_iff b s t _ cap2 hcap2 hteq
    have hnotin1 : Move.mk s t ∉ cap1 := by
      intro hmem
      rcases (pawnCaptureAt_ok_shape b s _ cap1 hcap1).2 with rfl | rfl
      · simp at hmem
      · rcases List.mem_singleton.mp hmem with heq
        injection heq with h1 h2
        cases hco : b.to_move <;>
          rw [hco] at hteq h2 <;>
          simp only [pawnOffset, castUsize] at hteq h2 <;> omega
    constructor
    · intro hmem
      rcases List.mem_append.mp hmem with hmem1 | hmem_dbl
      · rcases List.mem_append.mp hmem1 with hmem2 | hmem_c2
        · rcases List.mem_append.mp hmem2 with hmem_push | hmem_c1
          · exact absurd rfl (hpush_ne _ hmem_push)
          · exact absurd hmem_c1 hnotin1
        · exact hiff.mp hmem_c2
      · exact absurd rfl (hdbl_ne _ hmem_dbl)
    · intro hrhs
      exact List.mem_append.mpr (Or.inl (List.mem_append.mpr (Or.inr
        (hiff.mpr hrhs))))

/-- Witness for C7: applying the characterization to the h4 pawn and the
g5 target on the file-wraparound scenario board. -/
theorem pawn_capture_emitted_iff_witness :
    Move.mk 31 38 ∈ [Move.mk 31 39, Move.mk 31 38] ↔
      38 < 64 ∧ (∃ c, pawnH4Board.colorGet 38 = some c ∧
        c ≠ pawnH4Board.to_move) ∧
      (((38 : Nat) : Int).tmod 8 - ((31 : Nat) : Int).tmod 8).natAbs = 1 :=
  pawn_capture_emitted_iff.1 pawnH4Board 31 38 [⟨31, 39⟩, ⟨31, 38⟩]
    (by omega) (by decide) (Or.inl (by decide))

/-! ### Splitting the emitted FEN back into fields -/

theorem splitWSAux_word (w : List Char) :
    ∀ (acc rest : List Char), w ≠ [] → (∀ c ∈ w, ¬c.isWhitespace = true) →
      splitWSAux (w ++ ' ' :: rest) acc =
        (acc.reverse ++ w) :: splitWSAux rest [] := by
  induction w with
  | nil => intro acc rest hne _; cases hne rfl
  | cons c cs ih =>
    intro acc rest _ hws
    have hc : ¬c.isWhitespace = true := hws c (List.mem_cons_self c cs)
    simp only [List.cons_append, splitWSAux, if_neg hc]
    cases hcs : cs with
    | nil =>
      simp only [hcs, List.nil_append, splitWSAux]
      rw [if_pos (by decide)]
      rw [if_neg (by simp)]
      simp
    | cons c2 cs2 =>
      rw [← hcs]
      simp only [List.append_eq]
      rw [ih (c :: acc) rest (by rw [hcs]; simp)
        (fun x hx => hws x (List.mem_cons_of_mem c hx))]
      simp

theorem splitWSAux_last (w : List Char) :
    ∀ (acc : List Char), w ≠ [] → (∀ c ∈ w, ¬c.isWhitespace = true) →
      splitWSAux w acc = [acc.reverse ++ w] := by
  induction w with
  | nil => intro acc hne _; cases hne rfl
  | cons c cs ih =>
    intro acc _ hws
    have hc : ¬c.isWhitespace = true := hws c (List.mem_cons_self c cs)
    simp only [splitWSAux, if_neg hc]
    cases hcs : cs with
    | nil =>
      simp only [hcs, splitWSAux]
      rw [if_neg (by simp)]
      simp
    | cons c2 cs2 =>
      rw [← hcs]
      rw [ih (c :: acc) (by rw [hcs]; simp)
        (fun x hx => hws x (List.mem_cons_of_mem c hx))]
      simp

/-- A word followed by a space: the word becomes the next field. -/
theorem splitWS_word_space (w rest : List Char) (hne : w ≠ [])
    (hws : ∀ c ∈ w, ¬c.isWhitespace = true) :
    splitWS (w ++ ' ' :: rest) = w :: splitWS rest := by
  simp only [splitWS]
  rw [splitWSAux_word w [] rest hne hws]
  simp

/-- A final whitespace-free word is the last field. -/
theorem splitWS_last (w : List Char) (hne : w ≠ [])
    (hws : ∀ c ∈ w, ¬c.isWhitespace = true) :
    splitWS w = [w] := by
  simp only [splitWS]
  rw [splitWSAux_last w [] hne hws]
  simp

/-! ### Decimal strings round-trip through `parseU32` -/

theorem natDigitsAux_ne_nil (fuel n : Nat) (hf : 0 < fuel) (hn : n ≠ 0) :
    natDigitsAux fuel n ≠ [] := by
  cases fuel with
  | zero => omega
  | succ f =>
    simp only [natDigitsAux, if_neg hn]
    simp

theorem natToChars_ne_nil (n : Nat) : natToChars n ≠ [] := by
  by_cases h : n = 0
  · subst h; simp [natToChars]
  · simp only [natToChars, if_neg h]
    exact natDigitsAux_ne_nil 10 n (by omega) h

theorem natDigitsAux_chars (fuel : Nat) :
    ∀ n, ∀ c ∈ natDigitsAux fuel n,
      ∃ d, d < 10 ∧ c = Char.ofNat (48 + d) := by
  induction fuel with
  | zero => intro n c hc; simp [natDigitsAux] at hc
  | succ f ih =>
    intro n c hc
    by_cases h : n = 0
    · simp [natDigitsAux, h] at hc
    · simp only [natDigitsAux, if_neg h, List.mem_append,
        List.mem_singleton] at hc
      rcases hc with hc | rfl
      · exact ih (n / 10) c hc
      · exact ⟨n % 10, by omega, rfl⟩

theorem natToChars_digits (n : Nat) :
    ∀ c ∈ natToChars n, ∃ d, d < 10 ∧ c = Char.ofNat (48 + d) := by
  intro c hc
  by_cases h : n = 0
  · subst h
    have h0 : natToChars 0 = ['0'] := rfl
    rw [h0, List.mem_singleton] at hc
    exact ⟨0, by omega, by rw [hc]⟩
  · simp only [natToChars, if_neg h] at hc
    exact natDigitsAux_chars 10 n c hc

theorem digit_char_not_ws (d : Nat) (hd : d < 10) :
    ¬(Char.ofNat (48 + d)).isWhitespace = true := by
  interval_cases d <;> decide

theorem digit_char_isDigit (d : Nat) (hd : d < 10) :
    (Char.ofNat (48 + d)).isDigit = true := by
  interval_cases d <;> decide

theorem digit_char_toNat (d : Nat) (hd : d < 10) :
    (Char.ofNat (48 + d)).toNat = 48 + d := by
  interval_cases d <;> decide

theorem natToChars_not_ws (n : Nat) :
    ∀ c ∈ natToChars n, ¬c.isWhitespace = true := by
  intro c hc
  rcases natToChars_digits n c hc with ⟨d, hd, rfl⟩
  exact digit_char_not_ws d hd

theorem foldl_natDigitsAux (fuel : Nat) :
    ∀ (n a : Nat), n < 10 ^ fuel →
      (natDigitsAux fuel n).foldl (fun acc c => acc * 10 + (c.toNat - 48)) a =
        a * 10 ^ (natDigitsAux fuel n).length + n := by
  induction fuel with
  | zero =>
    intro n a hn
    simp only [natDigitsAux]
    simp only [Nat.pow_zero] at hn
    simp only [List.foldl_nil, List.length_nil, Nat.pow_zero]
    omega
  | succ f ih =>
    intro n a hn
    by_cases h : n = 0
    · simp [natDigitsAux, h]
    · have hdiv : n / 10 < 10 ^ f := by
        have hpow : 10 ^ (f + 1) = 10 * 10 ^ f := by ring
        rw [hpow] at hn
        omega
      simp only [natDigitsAux, if_neg h, List.foldl_append, List.foldl_cons,
        List.foldl_nil, List.length_append, List.length_singleton]
      rw [ih (n / 10) a hdiv]
      rw [digit_char_toNat (n % 10) (by omega)]
      have hpow : a * 10 ^ ((natDigitsAux f (n / 10)).length + 1) =
          a * 10 ^ (natDigitsAux f (n / 10)).length * 10 := by ring
      rw [hpow]
      generalize a * 10 ^ (natDigitsAux f (n / 10)).length = w
      omega

/-- Printing then parsing a 32-bit value is the identity. -/
theorem parseU32_natToChars (n : Nat) (hn : n < 4294967296) :
    parseU32 (natToChars n) = some n := by
  by_cases h : n = 0
  · subst h; decide
  · have hne := natToChars_ne_nil n
    have hdig : (natToChars n).all Char.isDigit = true := by
      rw [List.all_eq_true]
      intro c hc
      rcases natToChars_digits n c hc with ⟨d, hd, rfl⟩
      exact digit_char_isDigit d hd
    have hnoplus : ∀ rest, natToChars n ≠ '+' :: rest := by
      intro rest hcontra
      have hmem : '+' ∈ natToChars n := by
        rw [hcontra]; exact List.mem_cons_self _ _
      rcases natToChars_digits n _ hmem with ⟨d, hd, hchar⟩
      interval_cases d <;> exact absurd hchar (by decide)
    have hfold : (natToChars n).foldl
        (fun acc c => acc * 10 + (c.toNat - 48)) 0 = n := by
      simp only [natToChars, if_neg h]
      rw [foldl_natDigitsAux 10 n 0 (by omega)]
      omega
    obtain ⟨c0, rest0, hh⟩ : ∃ c0 rest0, natToChars n = c0 :: rest0 := by
      cases hnc : natToChars n with
      | nil => exact absurd hnc hne
      | cons a l => exact ⟨a, l, rfl⟩
    have hplus : c0 ≠ '+' := by
      intro hcontra
      exact hnoplus rest0 (by rw [hh, hcontra])
    have hstrip : stripPlus (natToChars n) = natToChars n := by
      rw [hh]
      simp only [stripPlus, if_neg hplus]
    simp only [parseU32, hstrip]
    rw [if_pos ⟨hne, hdig⟩, hfold, if_pos hn]

/-! ### Replaying the emitted placement field through the parser -/

theorem parsePlacement_append (xs : List Char) :
    ∀ (ys : List Char) (st : ParseState),
      parsePlacement (xs ++ ys) st =
        (parsePlacement xs st).bind fun st2 => parsePlacement ys st2 := by
  induction xs with
  | nil => intro ys st; simp [parsePlacement, Outcome.bind]
  | cons c cs ih =>
    intro ys st
    simp only [List.cons_append, parsePlacement]
    by_cases hs : c = '/'
    · rw [if_pos hs, if_pos hs]
      by_cases hr : st.rank = 0
      · rw [if_pos hr, if_pos hr]; rfl
      · rw [if_neg hr, if_neg hr]
        simp only [List.append_eq]
        rw [ih]
    · rw [if_neg hs, if_neg hs]
      by_cases hd : isFenDigit c = true
      · rw [if_pos hd, if_pos hd]
        simp only [List.append_eq]
        rw [ih]
      · rw [if_neg hd, if_neg hd]
        cases hp : pieceOfChar c with
        | none => rfl
        | some pc =>
          obtain ⟨p, col⟩ := pc
          dsimp only
          by_cases hidx : st.rank * 8 + st.file < 64
          · rw [dif_pos hidx, dif_pos hidx]
            simp only [List.append_eq]
            rw [ih]
          · rw [dif_neg hidx, dif_neg hidx]; rfl

theorem natToChars_small (e : Nat) (h1 : 1 ≤ e) (h8 : e ≤ 8) :
    natToChars e = [Char.ofNat (48 + e)] ∧
    ¬Char.ofNat (48 + e) = '/' ∧
    isFenDigit (Char.ofNat (48 + e)) = true ∧
    (Char.ofNat (48 + e)).toNat - 48 = e := by
  interval_cases e <;> exact ⟨by decide, by decide, by decide, by decide⟩

theorem to_symbol_facts (p : Piece) (c : Color) :
    ¬to_symbol p c = '/' ∧ isFenDigit (to_symbol p c) = false ∧
    pieceOfChar (to_symbol p c) = some (p, c) ∧
    ¬(to_symbol p c).isWhitespace = true := by
  cases p <;> cases c <;> exact ⟨by decide, by decide, by decide, by decide⟩

theorem overlayP_empty (b : Board) (g : Fin 64 → Option Piece) (lo : Nat) :
    overlayP b g lo lo = g := by
  funext i
  simp only [overlayP]
  rw [if_neg]
  rintro ⟨h1, h2, _⟩
  omega

theorem overlayC_empty (b : Board) (g : Fin 64 → Option Color) (lo : Nat) :
    overlayC b g lo lo = g := by
  funext i
  simp only [overlayC]
  rw [if_neg]
  rintro ⟨h1, h2, _⟩
  omega

theorem overlayP_skip (b : Board) (g : Fin 64 → Option Piece) (lo hi : Nat)
    (hlo : lo < 64) (hnone : b.squares ⟨lo, hlo⟩ = none) :
    overlayP b g (lo + 1) hi = overlayP b g lo hi := by
  funext i
  simp only [overlayP]
  by_cases hsq : b.squares i = none
  · simp [hsq]
  · have hne : i.val ≠ lo := by
      intro hcontra
      have hieq : i = ⟨lo, hlo⟩ := Fin.ext hcontra
      exact hsq (by rw [hieq]; exact hnone)
    have hiff : (lo + 1 ≤ i.val ∧ i.val < hi ∧ b.squares i ≠ none) ↔
        (lo ≤ i.val ∧ i.val < hi ∧ b.squares i ≠ none) := by
      constructor
      · rintro ⟨ha, hb, hc2⟩; exact ⟨by omega, hb, hc2⟩
      · rintro ⟨ha, hb, hc2⟩; exact ⟨by omega, hb, hc2⟩
    rw [if_congr hiff rfl rfl]

theorem overlayC_skip (b : Board) (g : Fin 64 → Option Color) (lo hi : Nat)
    (hlo : lo < 64) (hnone : b.colors ⟨lo, hlo⟩ = none) :
    overlayC b g (lo + 1) hi = overlayC b g lo hi := by
  funext i
  simp only [overlayC]
  by_cases hsq : b.colors i = none
  · simp [hsq]
  · have hne : i.val ≠ lo := by
      intro hcontra
      have hieq : i = ⟨lo, hlo⟩ := Fin.ext hcontra
      exact hsq (by rw [hieq]; exact hnone)
    have hiff : (lo + 1 ≤ i.val ∧ i.val < hi ∧ b.colors i ≠ none) ↔
        (lo ≤ i.val ∧ i.val < hi ∧ b.colors i ≠ none) := by
      constructor
      · rintro ⟨ha, hb, hc2⟩; exact ⟨by omega, hb, hc2⟩
      · rintro ⟨ha, hb, hc2⟩; exact ⟨by omega, hb, hc2⟩
    rw [if_congr hiff rfl rfl]

theorem overlayP_write (b : Board) (g : Fin 64 → Option Piece) (lo hi : Nat)
    (hlo : lo < 64) (hlt : lo < hi) (p : Piece)
    (hsq : b.squares ⟨lo, hlo⟩ = some p) :
    overlayP b (Function.update g ⟨lo, hlo⟩ (some p)) (lo + 1) hi =
      overlayP b g lo hi := by
  funext i
  simp only [overlayP]
  by_cases heq : i = ⟨lo, hlo⟩
  · rw [heq, Function.update_same]
    rw [if_neg (by rintro ⟨h1, _, _⟩; have h1' : lo + 1 ≤ lo := h1; omega)]
    rw [if_pos ⟨(Nat.le_refl lo : lo ≤ lo), hlt,
      (by simp [hsq] : b.squares ⟨lo, hlo⟩ ≠ none)⟩]
    exact hsq.symm
  · rw [Function.update_noteq heq]
    have hne : i.val ≠ lo := fun h => heq (Fin.ext h)
    have hiff : (lo + 1 ≤ i.val ∧ i.val < hi ∧ b.squares i ≠ none) ↔
        (lo ≤ i.val ∧ i.val < hi ∧ b.squares i ≠ none) := by
      constructor
      · rintro ⟨ha, hb, hc2⟩; exact ⟨by omega, hb, hc2⟩
      · rintro ⟨ha, hb, hc2⟩; exact ⟨by omega, hb, hc2⟩
    rw [if_congr hiff rfl rfl]

theorem overlayC_write (b : Board) (g : Fin 64 → Option Color) (lo hi : Nat)
    (hlo : lo < 64) (hlt : lo < hi) (c : Color)
    (hsq : b.colors ⟨lo, hlo⟩ = some c) :
    overlayC b (Function.update g ⟨lo, hlo⟩ (some c)) (lo + 1) hi =
      overlayC b g lo hi := by
  funext i
  simp only [overlayC]
  by_cases heq : i = ⟨lo, hlo⟩
  · rw [heq, Function.update_same]
    rw [if_neg (by rintro ⟨h1, _, _⟩; have h1' : lo + 1 ≤ lo := h1; omega)]
    rw [if_pos ⟨(Nat.le_refl lo : lo ≤ lo), hlt,
      (by simp [hsq] : b.colors ⟨lo, hlo⟩ ≠ none)⟩]
    exact hsq.symm
  · rw [Function.update_noteq heq]
    have hne : i.val ≠ lo := fun h => heq (Fin.ext h)
    have hiff : (lo + 1 ≤ i.val ∧ i.val < hi ∧ b.colors i ≠ none) ↔
        (lo ≤ i.val ∧ i.val < hi ∧ b.colors i ≠ none) := by
      constructor
      · rintro ⟨ha, hb, hc2⟩; exact ⟨by omega, hb, hc2⟩
      · rintro ⟨ha, hb, hc2⟩; exact ⟨by omega, hb, hc2⟩
    rw [if_congr hiff rfl rfl]

theorem overlayP_compose (b : Board) (g : Fin 64 → Option Piece)
    (lo mid hi : Nat) (h1 : lo ≤ mid) (h2 : mid ≤ hi) :
    overlayP b (overlayP b g mid hi) lo mid = overlayP b g lo hi := by
  funext i
  simp only [overlayP]
  by_cases hsq : b.squares i = none
  · simp [hsq]
  · by_cases hin : lo ≤ i.val ∧ i.val < mid
    · rw [if_pos ⟨hin.1, hin.2, hsq⟩, if_pos ⟨hin.1, by omega, hsq⟩]
    · rw [if_neg (by rintro ⟨ha, hb, _⟩; exact hin ⟨ha, hb⟩)]
      by_cases hin2 : mid ≤ i.val ∧ i.val < hi
      · rw [if_pos ⟨hin2.1, hin2.2, hsq⟩, if_pos ⟨by omega, hin2.2, hsq⟩]
      · rw [if_neg (by rintro ⟨ha, hb, _⟩; exact hin2 ⟨ha, hb⟩)]
        rw [if_neg (by rintro ⟨ha, hb, _⟩; exact (by omega : False))]

theorem overlayC_compose (b : Board) (g : Fin 64 → Option Color)
    (lo mid hi : Nat) (h1 : lo ≤ mid) (h2 : mid ≤ hi) :
    overlayC b (overlayC b g mid hi) lo mid = overlayC b g lo hi := by
  funext i
  simp only [overlayC]
  by_cases hsq : b.colors i = none
  · simp [hsq]
  · by_cases hin : lo ≤ i.val ∧ i.val < mid
    · rw [if_pos ⟨hin.1, hin.2, hsq⟩, if_pos ⟨hin.1, by omega, hsq⟩]
    · rw [if_neg (by rintro ⟨ha, hb, _⟩; exact hin ⟨ha, hb⟩)]
      by_cases hin2 : mid ≤ i.val ∧ i.val < hi
      · rw [if_pos ⟨hin2.1, hin2.2, hsq⟩, if_pos ⟨by omega, hin2.2, hsq⟩]
      · rw [if_neg (by rintro ⟨ha, hb, _⟩; exact hin2 ⟨ha, hb⟩)]
        rw [if_neg (by rintro ⟨ha, hb, _⟩; exact (by omega : False))]

theorem overlayP_full (b : Board) :
    overlayP b (fun _ => none) 0 64 = b.squares := by
  funext i
  simp only [overlayP]
  by_cases h : b.squares i = none
  · rw [if_neg (by rintro ⟨_, _, h3⟩; exact h3 h)]
    exact h.symm
  · rw [if_pos ⟨by omega, i.isLt, h⟩]

theorem overlayC_full (b : Board) :
    overlayC b (fun _ => none) 0 64 = b.colors := by
  funext i
  simp only [overlayC]
  by_cases h : b.colors i = none
  · rw [if_neg (by rintro ⟨_, _, h3⟩; exact h3 h)]
    exact h.symm
  · rw [if_pos ⟨by omega, i.isLt, h⟩]

/-- Replaying one rank's run-length encoding through the placement parser:
starting before file `8 - fuel` with `e` pending empties, the parser ends
the rank at file 8 having stored exactly the occupied squares of board
`b` in the remaining window. -/
theorem parsePlacement_rank (b : Board) (r : Nat) (hr : r < 8)
    (hco : ∀ i, b.squares i = none ↔ b.colors i = none) :
    ∀ (fuel file e : Nat), fuel + file = 8 → e ≤ file →
      ∀ (sq : Fin 64 → Option Piece) (co : Fin 64 → Option Color)
        (rest : List Char),
        parsePlacement (rleFilesAux b r fuel file e ++ rest)
          ⟨sq, co, file - e, r⟩ =
        parsePlacement rest
          ⟨overlayP b sq (r * 8 + file) (r * 8 + 8),
           overlayC b co (r * 8 + file) (r * 8 + 8), 8, r⟩ := by
  intro fuel
  induction fuel with
  | zero =>
    intro file e hsum he sq co rest
    have hfile : file = 8 := by omega
    subst hfile
    rw [overlayP_empty, overlayC_empty]
    simp only [rleFilesAux]
    by_cases he0 : e > 0
    · rw [if_pos he0]
      obtain ⟨hchars, hslash, hdigit, htoNat⟩ :=
        natToChars_small e (by omega) (by omega)
      rw [hchars]
      simp only [List.cons_append, List.nil_append, parsePlacement]
      rw [if_neg hslash, if_pos hdigit]
      rw [htoNat]
      have h8 : 8 - e + e = 8 := by omega
      rw [h8]
      simp only [List.append_eq, List.nil_append]
    · rw [if_neg he0]
      have he' : e = 0 := by omega
      subst he'
      simp only [List.nil_append, Nat.sub_zero]
  | succ f ih =>
    intro file e hsum he sq co rest
    have hfile8 : file < 8 := by omega
    have hidx : r * 8 + file < 64 := by omega
    simp only [rleFilesAux]
    have hsget : b.squareGet (r * 8 + file) = b.squares ⟨r * 8 + file, hidx⟩ := by
      simp only [Board.squareGet, dif_pos hidx]
    have hcget : b.colorGet (r * 8 + file) = b.colors ⟨r * 8 + file, hidx⟩ := by
      simp only [Board.colorGet, dif_pos hidx]
    have harith : r * 8 + (file + 1) = (r * 8 + file) + 1 := by omega
    cases hsq : b.squareGet (r * 8 + file) with
    | none =>
      cases hcv : b.colorGet (r * 8 + file) with
      | none =>
        have hsub : file - e = file + 1 - (e + 1) := by omega
        rw [hsub]
        rw [ih (file + 1) (e + 1) (by omega) (by omega) sq co rest]
        rw [harith]
        rw [overlayP_skip b sq (r * 8 + file) (r * 8 + 8) hidx
          (by rw [← hsget]; exact hsq)]
        rw [overlayC_skip b co (r * 8 + file) (r * 8 + 8) hidx
          (by rw [← hcget]; exact hcv)]
      | some c =>
        exfalso
        have h1 : b.squares ⟨r * 8 + file, hidx⟩ = none := by
          rw [← hsget]; exact hsq
        have h2 : b.colors ⟨r * 8 + file, hidx⟩ = some c := by
          rw [← hcget]; exact hcv
        rw [(hco _).mp h1] at h2
        cases h2
    | some p =>
      cases hcv : b.colorGet (r * 8 + file) with
      | none =>
        exfalso
        have h1 : b.squares ⟨r * 8 + file, hidx⟩ = some p := by
          rw [← hsget]; exact hsq
        have h2 : b.colors ⟨r * 8 + file, hidx⟩ = none := by
          rw [← hcget]; exact hcv
        rw [(hco _).mpr h2] at h1
        cases h1
      | some c =>
        dsimp only
        have hsqb : b.squares ⟨r * 8 + file, hidx⟩ = some p := by
          rw [← hsget]; exact hsq
        have hcvb : b.colors ⟨r * 8 + file, hidx⟩ = some c := by
          rw [← hcget]; exact hcv
        obtain ⟨hsym_slash, hsym_digit, hsym_piece, _⟩ := to_symbol_facts p c
        have hsymstep : ∀ (tail : List Char),
            parsePlacement (to_symbol p c :: tail) ⟨sq, co, file, r⟩ =
              parsePlacement tail
                ⟨Function.update sq ⟨r * 8 + file, hidx⟩ (some p),
                 Function.update co ⟨r * 8 + file, hidx⟩ (some c),
                 file + 1, r⟩ := by
          intro tail
          simp only [parsePlacement]
          rw [if_neg hsym_slash, if_neg (by rw [hsym_digit]; simp)]
          rw [hsym_piece]
          dsimp only
          rw [dif_pos hidx]
        have hrest : parsePlacement
            (to_symbol p c :: (rleFilesAux b r f (file + 1) 0 ++ rest))
            ⟨sq, co, file, r⟩ =
            parsePlacement rest
              ⟨overlayP b sq (r * 8 + file) (r * 8 + 8),
               overlayC b co (r * 8 + file) (r * 8 + 8), 8, r⟩ := by
          rw [hsymstep]
          have hsub : file + 1 = file + 1 - 0 := rfl
          rw [show (⟨Function.update sq ⟨r * 8 + file, hidx⟩ (some p),
              Function.update co ⟨r * 8 + file, hidx⟩ (some c),
              file + 1, r⟩ : ParseState) =
            ⟨Function.update sq ⟨r * 8 + file, hidx⟩ (some p),
              Function.update co ⟨r * 8 + file, hidx⟩ (some c),
              file + 1 - 0, r⟩ from rfl]
          rw [ih (file + 1) 0 (by omega) (by omega) _ _ rest]
          rw [harith]
          rw [overlayP_write b sq (r * 8 + file) (r * 8 + 8) hidx
            (by omega) p hsqb]
          rw [overlayC_write b co (r * 8 + file) (r * 8 + 8) hidx
            (by omega) c hcvb]
        by_cases he0 : e > 0
        · rw [if_pos he0]
          obtain ⟨hchars, hslash, hdigit, htoNat⟩ :=
            natToChars_small e (by omega) (by omega)
          rw [hchars]
          simp only [List.cons_append, List.nil_append, List.append_assoc,
            parsePlacement]
          rw [if_neg hslash, if_pos hdigit]
          dsimp only
          rw [htoNat]
          have h8 : file - e + e = file := by omega
          rw [h8]
          exact hrest
        · rw [if_neg he0]
          have he' : e = 0 := by omega
          subst he'
          simp only [List.nil_append, Nat.sub_zero, List.cons_append]
          exact hrest

/-- Replaying the whole placement field (ranks `r` down to 0) rebuilds
exactly the occupied squares of `b` below rank `r + 1`. -/
theorem parsePlacement_ranks (b : Board)
    (hco : ∀ i, b.squares i = none ↔ b.colors i = none) :
    ∀ (r : Nat), r < 8 →
      ∀ (sq : Fin 64 → Option Piece) (co : Fin 64 → Option Color),
        parsePlacement (ranksAux b (rankList r)) ⟨sq, co, 0, r⟩ =
          .ok ⟨overlayP b sq 0 (r * 8 + 8),
               overlayC b co 0 (r * 8 + 8), 8, 0⟩ := by
  intro r
  induction r with
  | zero =>
    intro _ sq co
    simp only [rankList, ranksAux]
    rw [if_neg (by omega)]
    simp only [List.append_nil]
    rw [show rankChars b 0 = rleFilesAux b 0 8 0 0 ++ [] from
      (List.append_nil _).symm]
    have h1 := parsePlacement_rank b 0 (by omega) hco 8 0 0 (by omega)
      (by omega) sq co []
    simp only [Nat.sub_zero] at h1
    rw [h1]
    simp only [parsePlacement]
  | succ r ihr =>
    intro hr8 sq co
    simp only [rankList, ranksAux]
    rw [if_pos (by omega)]
    rw [List.append_assoc]
    rw [show rankChars b (r + 1) = rleFilesAux b (r + 1) 8 0 0 from rfl]
    have h1 := parsePlacement_rank b (r + 1) hr8 hco 8 0 0 (by omega)
      (by omega) sq co (['/'] ++ ranksAux b (rankList r))
    simp only [Nat.sub_zero] at h1
    rw [h1]
    simp only [List.cons_append, List.nil_append, parsePlacement]
    simp only [if_true]
    rw [if_neg (Nat.succ_ne_zero r)]
    simp only [List.append_eq, List.nil_append, Nat.add_sub_cancel]
    rw [ihr (by omega)]
    rw [show (r + 1) * 8 + 0 = r * 8 + 8 from by omega]
    rw [overlayP_compose b sq 0 (r * 8 + 8) ((r + 1) * 8 + 8) (by omega)
      (by omega)]
    rw [overlayC_compose b co 0 (r * 8 + 8) ((r + 1) * 8 + 8) (by omega)
      (by omega)]

/-- The full placement field rebuilds exactly `b`'s arrays from the empty
accumulator. -/
theorem parsePlacement_placementChars (b : Board)
    (hco : ∀ i, b.squares i = none ↔ b.colors i = none) :
    parsePlacement (placementChars b)
      ⟨fun _ => none, fun _ => none, 0, 7⟩ =
      .ok ⟨b.squares, b.colors, 8, 0⟩ := by
  have h := parsePlacement_ranks b hco 7 (by omega)
    (fun _ => none) (fun _ => none)
  simp only [placementChars]
  rw [h]
  rw [show (7 : Nat) * 8 + 8 = 64 from rfl]
  rw [overlayP_full, overlayC_full]

theorem placementChars_not_ws (b : Board) :
    ∀ c ∈ placementChars b, ¬c.isWhitespace = true := by
  have hrle : ∀ (r fuel file e : Nat),
      ∀ c ∈ rleFilesAux b r fuel file e, ¬c.isWhitespace = true := by
    intro r fuel
    induction fuel with
    | zero =>
      intro file e c hc
      simp only [rleFilesAux] at hc
      split at hc
      · rcases natToChars_digits e c hc with ⟨d, hd, rfl⟩
        exact digit_char_not_ws d hd
      · simp at hc
    | succ f ih =>
      intro file e c hc
      simp only [rleFilesAux] at hc
      split at hc
      · rename_i p col h1 h2
        simp only [List.mem_append, List.mem_cons] at hc
        rcases hc with hc | hc | hc
        · split at hc
          · rcases natToChars_digits e c hc with ⟨d, hd, rfl⟩
            exact digit_char_not_ws d hd
          · simp at hc
        · rw [hc]
          exact (to_symbol_facts p col).2.2.2
        · exact ih (file + 1) 0 c hc
      · exact ih (file + 1) (e + 1) c hc
  have hranks : ∀ (r : Nat),
      ∀ c ∈ ranksAux b (rankList r), ¬c.isWhitespace = true := by
    intro r
    induction r with
    | zero =>
      intro c hc
      simp only [rankList, ranksAux, List.append_nil, List.mem_append] at hc
      rcases hc with hc | hc
      · exact hrle 0 8 0 0 c hc
      · rw [if_neg (by omega)] at hc
        simp at hc
    | succ r ihr =>
      intro c hc
      simp only [rankList, ranksAux, List.mem_append] at hc
      rcases hc with (hc | hc) | hc
      · exact hrle (r + 1) 8 0 0 c hc
      · rw [if_pos (by omega)] at hc
        simp only [List.mem_singleton] at hc
        rw [hc]; decide
      · exact ihr c hc
  intro c hc
  exact hranks 7 c hc

theorem rleFilesAux_ne_nil (b : Board) (r : Nat) :
    ∀ (fuel file e : Nat), 0 < fuel ∨ 0 < e →
      rleFilesAux b r fuel file e ≠ [] := by
  intro fuel
  induction fuel with
  | zero =>
    intro file e hpos
    simp only [rleFilesAux]
    rw [if_pos (by omega)]
    exact natToChars_ne_nil e
  | succ f ih =>
    intro file e _
    simp only [rleFilesAux]
    split
    · intro hcon
      rcases List.append_eq_nil.mp hcon with ⟨_, hx⟩
      cases hx
    · exact ih (file + 1) (e + 1) (Or.inr (by omega))

theorem placementChars_ne_nil (b : Board) : placementChars b ≠ [] := by
  simp only [placementChars, rankList, ranksAux, rankChars]
  intro hcontra
  rcases List.append_eq_nil.mp hcontra with ⟨h1, _⟩
  rcases List.append_eq_nil.mp h1 with ⟨h2, _⟩
  exact rleFilesAux_ne_nil b 7 8 0 0 (Or.inl (by omega)) h2

theorem castlingChars_facts (b : Board) :
    castlingOk (castlingChars b) = true ∧
    castlingChars b ≠ [] ∧
    (∀ c ∈ castlingChars b, ¬c.isWhitespace = true) ∧
    (castlingChars b).contains 'K' = b.can_white_king_side_castle ∧
    (castlingChars b).contains 'k' = b.can_black_king_side_castle ∧
    (castlingChars b).contains 'Q' = b.can_white_queen_side_castle ∧
    (castlingChars b).contains 'q' = b.can_black_queen_side_castle := by
  simp only [castlingChars]
  cases h1 : b.can_white_king_side_castle <;>
    cases h2 : b.can_white_queen_side_castle <;>
      cases h3 : b.can_black_king_side_castle <;>
        cases h4 : b.can_black_queen_side_castle
  all_goals decide

theorem square_names_spec (sq : Nat) (h64 : sq < 64) :
    ∃ name, square_names[sq]? = some name ∧ name ≠ [] ∧
      (∀ c ∈ name, ¬c.isWhitespace = true) ∧
      parse_en_passant_square name = .ok (some sq) := by
  have hall : ((List.finRange 64).all fun i =>
      decide (square_names[i.val]? = some (square_names.getD i.val [])) &&
      decide (square_names.getD i.val [] ≠ []) &&
      ((square_names.getD i.val []).all fun c => !c.isWhitespace) &&
      decide (parse_en_passant_square (square_names.getD i.val []) =
        .ok (some i.val))) = true := by decide
  rw [List.all_eq_true] at hall
  have h := hall ⟨sq, h64⟩ (List.mem_finRange _)
  simp only [Bool.and_eq_true, decide_eq_true_eq, List.all_eq_true,
    Bool.not_eq_true'] at h
  refine ⟨square_names.getD sq [], h.1.1.1, h.1.1.2, ?_, h.2⟩
  intro c hc
  have hcf := h.1.2 c hc
  simp [hcf]

theorem parseU32_lt (s : List Char) (v : Nat) (h : parseU32 s = some v) :
    v < 4294967296 := by
  simp only [parseU32] at h
  split at h
  · split at h
    · cases h
      rename_i hlt
      exact hlt
    · cases h
  · cases h

theorem parsePlacement_copresence (cs : List Char) :
    ∀ (st st' : ParseState), parsePlacement cs st = .ok st' →
      (∀ i, st.squares i = none ↔ st.colors i = none) →
      (∀ i, st'.squares i = none ↔ st'.colors i = none) := by
  induction cs with
  | nil =>
    intro st st' h hco
    simp only [parsePlacement] at h
    cases h
    exact hco
  | cons c cs ih =>
    intro st st' h hco
    simp only [parsePlacement] at h
    by_cases hs : c = '/'
    · rw [if_pos hs] at h
      by_cases hr : st.rank = 0
      · rw [if_pos hr] at h; cases h
      · rw [if_neg hr] at h
        exact ih _ _ h hco
    · rw [if_neg hs] at h
      by_cases hd : isFenDigit c = true
      · rw [if_pos hd] at h
        exact ih _ _ h hco
      · rw [if_neg hd] at h
        cases hp : pieceOfChar c with
        | none => rw [hp] at h; cases h
        | some pc =>
          obtain ⟨p, col⟩ := pc
          rw [hp] at h
          dsimp only at h
          by_cases hidx : st.rank * 8 + st.file < 64
          · rw [dif_pos hidx] at h
            refine ih _ _ h ?_
            intro i
            by_cases heq : i = ⟨st.rank * 8 + st.file, hidx⟩
            · rw [heq]
              simp only [Function.update_same]
              constructor <;> intro hcon <;> cases hcon
            · simp only [Function.update_noteq heq]
              exact hco i
          · rw [dif_neg hidx] at h; cases h
    
theorem from_algebraic_lt (s : List Char) (sq : Nat)
    (h : from_algebraic_notation s = .ok sq) : sq < 64 := by
  simp only [ from_algebraic_notation] at h
  split at h
  · split at h
    · cases h
      rename_i f r hcond
      obtain ⟨h1, h2, h3, h4⟩ := hcond
      have hf : f.toNat ≤ 104 := h2
      have hr : r.toNat ≤ 56 := h4
      omega
    · cases h
  · cases h

theorem fieldGet_eq_ok_iff {fields : List (List Char)} {i : Nat}
    {f : List Char} : fieldGet fields i = .ok f ↔ fields[i]? = some f := by
  simp only [fieldGet]
  rcases h : fields[i]? with _ | g <;> simp

/-- Unpacking a successful `from_fen` run into its stages. -/
theorem from_fen_ok_elim {s : String} {b : Board} (h : from_fen s = .ok b) :
    ∃ f0 st f1 c f2 f4 hm f5 fm f3 ep,
      (splitWS s.toList)[0]? = some f0 ∧
      parsePlacement f0 ⟨fun _ => none, fun _ => none, 0, 7⟩ = .ok st ∧
      (splitWS s.toList)[1]? = some f1 ∧
      parseColor f1 = .ok c ∧
      (splitWS s.toList)[2]? = some f2 ∧
      castlingOk f2 = true ∧
      (splitWS s.toList)[4]? = some f4 ∧ parseU32 f4 = some hm ∧
      (splitWS s.toList)[5]? = some f5 ∧ parseU32 f5 = some fm ∧
      (splitWS s.toList)[3]? = some f3 ∧
      parse_en_passant_square f3 = .ok ep ∧
      b = ⟨st.squares, st.colors, c, f2.contains 'K', f2.contains 'k',
           f2.contains 'Q', f2.contains 'q', ep, hm, fm⟩ := by
  simp only [from_fen] at h
  rcases Outcome.bind_eq_ok_iff.mp h with ⟨f0, hf0, h1⟩
  rcases Outcome.bind_eq_ok_iff.mp h1 with ⟨st, hst, h2⟩
  rcases Outcome.bind_eq_ok_iff.mp h2 with ⟨f1, hf1, h3⟩
  rcases Outcome.bind_eq_ok_iff.mp h3 with ⟨c, hc, h4⟩
  rcases Outcome.bind_eq_ok_iff.mp h4 with ⟨f2, hf2, h5⟩
  rcases Outcome.bind_eq_ok_iff.mp h5 with ⟨u, hu, h6⟩
  rcases Outcome.bind_eq_ok_iff.mp h6 with ⟨f4, hf4, h7⟩
  rcases Outcome.bind_eq_ok_iff.mp h7 with ⟨hmv, hhm, h8⟩
  rcases Outcome.bind_eq_ok_iff.mp h8 with ⟨f5, hf5, h9⟩
  rcases Outcome.bind_eq_ok_iff.mp h9 with ⟨fmv, hfm, h10⟩
  rcases Outcome.bind_eq_ok_iff.mp h10 with ⟨f3, hf3, h11⟩
  rcases Outcome.bind_eq_ok_iff.mp h11 with ⟨ep, hep, h12⟩
  cases h12
  have hcast : castlingOk f2 = true := by
    by_cases hco : castlingOk f2 = true
    · exact hco
    · rw [if_neg hco] at hu; cases hu
  have hhm2 : parseU32 f4 = some hmv := by
    cases hpu : parseU32 f4 with
    | none => rw [hpu] at hhm; cases hhm
    | some v => rw [hpu] at hhm; cases hhm; rfl
  have hfm2 : parseU32 f5 = some fmv := by
    cases hpu : parseU32 f5 with
    | none => rw [hpu] at hfm; cases hfm
    | some v => rw [hpu] at hfm; cases hfm; rfl
  exact ⟨f0, st, f1, c, f2, f4, hmv, f5, fmv, f3, ep,
    fieldGet_eq_ok_iff.mp hf0, hst, fieldGet_eq_ok_iff.mp hf1, hc,
    fieldGet_eq_ok_iff.mp hf2, hcast, fieldGet_eq_ok_iff.mp hf4, hhm2,
    fieldGet_eq_ok_iff.mp hf5, hfm2, fieldGet_eq_ok_iff.mp hf3, hep, rfl⟩

theorem parse_en_passant_lt (f : List Char) (sq : Nat)
    (h : parse_en_passant_square f = .ok (some sq)) : sq < 64 := by
  simp only [parse_en_passant_square] at h
  by_cases hf : f = ['-']
  · rw [if_pos hf] at h; cases h
  · rw [if_neg hf] at h
    rcases Outcome.map_eq_ok_iff.mp h with ⟨a, ha, hsome⟩
    cases hsome
    exact from_algebraic_lt f sq ha

/-- Every board `from_fen` returns satisfies the parser's invariants. -/
theorem from_fen_wf {s : String} {b : Board} (h : from_fen s = .ok b) :
    BoardWF b := by
  obtain ⟨f0, st, f1, c, f2, f4, hmv, f5, fmv, f3, ep, h0, hp, h1, hc, h2,
    hcast, h4, hhm, h5, hfm, h3, hep, rfl⟩ := from_fen_ok_elim h
  refine ⟨?_, ?_, parseU32_lt f4 hmv hhm, parseU32_lt f5 fmv hfm⟩
  · exact parsePlacement_copresence f0 _ _ hp (fun i => by simp)
  · intro sq hsq
    dsimp only at hsq
    subst hsq
    exact parse_en_passant_lt f3 sq hep

/-- The en-passant field emitted by `to_fen` decodes back to the same
target. -/
theorem epChars_roundtrip (ep : Option Nat)
    (hep : ∀ sq, ep = some sq → sq < 64) :
    ∃ cs, epChars ep = .ok cs ∧ cs ≠ [] ∧
      (∀ c ∈ cs, ¬c.isWhitespace = true) ∧
      parse_en_passant_square cs = .ok ep := by
  cases ep with
  | none =>
    refine ⟨['-'], rfl, by simp, by decide, ?_⟩
    simp [parse_en_passant_square]
  | some sq =>
    obtain ⟨name, hname, hne, hws, hpar⟩ := square_names_spec sq (hep sq rfl)
    refine ⟨name, ?_, hne, hws, hpar⟩
    simp only [epChars, hname]

/-! ### Which outcomes each `from_fen` stage can produce -/

theorem Outcome.map_eq_err_iff {α β : Type} {g : α → β} {x : Outcome α}
    {m : String} : x.map g = .err m ↔ x = .err m := by
  cases x <;> simp [Outcome.map]

theorem fieldGet_ne_err (fields : List (List Char)) (i : Nat) (m : String) :
    fieldGet fields i ≠ .err m := by
  intro h
  simp only [fieldGet] at h
  rcases hg : fields[i]? with _ | g <;> rw [hg] at h <;>
    exact Outcome.noConfusion h

theorem fieldGet_ok_of_lt {fields : List (List Char)} {i : Nat}
    (h : i < fields.length) : fieldGet fields i = .ok fields[i] := by
  simp only [fieldGet]
  rw [List.getElem?_eq_getElem h]

theorem list_getD_eq_getElem {α : Type} (l : List α) (n : Nat) (d : α) :
    l.getD n d = (l[n]?).getD d :=
  List.getD_eq_getElem?_getD l n d

theorem parseColor_ne_panic (f : List Char) : parseColor f ≠ .panic := by
  intro h
  simp only [parseColor] at h
  by_cases h1 : f = ['w']
  · rw [if_pos h1] at h; cases h
  · rw [if_neg h1] at h
    by_cases h2 : f = ['b']
    · rw [if_pos h2] at h; cases h
    · rw [if_neg h2] at h; cases h

theorem parseColor_err (f : List Char) (m : String)
    (h : parseColor f = .err m) :
    m = "failed to parse active board color, must be 'b' or 'w'." := by
  simp only [parseColor] at h
  by_cases h1 : f = ['w']
  · rw [if_pos h1] at h; cases h
  · rw [if_neg h1] at h
    by_cases h2 : f = ['b']
    · rw [if_pos h2] at h; cases h
    · rw [if_neg h2] at h
      injection h with h'
      exact h'.symm

theorem from_algebraic_ne_panic (f : List Char) :
    from_algebraic_notation f ≠ .panic := by
  intro h
  rcases f with _ | ⟨a, f⟩
  · exact Outcome.noConfusion h
  · rcases f with _ | ⟨b, f⟩
    · exact Outcome.noConfusion h
    · rcases f with _ | ⟨c, f⟩
      · simp only [ from_algebraic_notation] at h
        split at h <;> exact Outcome.noConfusion h
      · exact Outcome.noConfusion h

theorem from_algebraic_err (f : List Char) (m : String)
    (h : from_algebraic_notation f = .err m) :
    ∃ t, m = "Invalid square string: " ++ t := by
  rcases f with _ | ⟨a, f⟩
  · simp only [ from_algebraic_notation] at h
    injection h with h'
    exact ⟨_, h'.symm⟩
  · rcases f with _ | ⟨b, f⟩
    · simp only [ from_algebraic_notation] at h
      injection h with h'
      exact ⟨_, h'.symm⟩
    · rcases f with _ | ⟨c, f⟩
      · simp only [ from_algebraic_notation] at h
        split at h
        · exact Outcome.noConfusion h
        · injection h with h'
          exact ⟨_, h'.symm⟩
      · simp only [ from_algebraic_notation] at h
        injection h with h'
        exact ⟨_, h'.symm⟩

theorem parse_en_passant_ne_panic (f : List Char) :
    parse_en_passant_square f ≠ .panic := by
  intro h
  simp only [parse_en_passant_square] at h
  by_cases hf : f = ['-']
  · rw [if_pos hf] at h; cases h
  · rw [if_neg hf] at h
    rw [Outcome.map_eq_panic_iff] at h
    exact from_algebraic_ne_panic f h

theorem parse_en_passant_err (f : List Char) (m : String)
    (h : parse_en_passant_square f = .err m) :
    ∃ t, m = "Invalid square string: " ++ t := by
  simp only [parse_en_passant_square] at h
  by_cases hf : f = ['-']
  · rw [if_pos hf] at h; exact Outcome.noConfusion h
  · rw [if_neg hf] at h
    rw [Outcome.map_eq_err_iff] at h
    exact from_algebraic_err f m h

/-- If the placement field obeys the rank/file bounds discipline captured
by `placementOk`, the placement loop cannot hit the rank underflow or the
out-of-range array write. -/
theorem parsePlacement_no_panic :
    ∀ (cs : List Char) (st : ParseState),
      placementOk cs st.file st.rank = true →
      parsePlacement cs st ≠ .panic := by
  intro cs
  induction cs with
  | nil => intro st hok h; exact Outcome.noConfusion h
  | cons c cs ih =>
    intro st hok h
    simp only [placementOk] at hok
    simp only [parsePlacement] at h
    by_cases hc : c = '/'
    · rw [if_pos hc] at hok h
      rw [Bool.and_eq_true, decide_eq_true_eq] at hok
      obtain ⟨h1, h2⟩ := hok
      rw [if_neg h1] at h
      exact ih _ h2 h
    · rw [if_neg hc] at hok h
      by_cases hd : isFenDigit c = true
      · rw [if_pos hd] at hok h
        exact ih _ hok h
      · rw [if_neg hd] at hok h
        cases hp : pieceOfChar c with
        | some pc =>
          obtain ⟨p, col⟩ := pc
          simp only [hp] at hok h
          rw [Bool.and_eq_true, decide_eq_true_eq] at hok
          obtain ⟨h1, h2⟩ := hok
          rw [dif_pos h1] at h
          exact ih _ h2 h
        | none =>
          simp only [hp] at h
          exact Outcome.noConfusion h

/-- The only error the placement loop can return is `InvalidPieceSymbol`. -/
theorem parsePlacement_err :
    ∀ (cs : List Char) (st : ParseState) (m : String),
      parsePlacement cs st = .err m → m = "invalid piece symbol in FEN" := by
  intro cs
  induction cs with
  | nil => intro st m h; exact Outcome.noConfusion h
  | cons c cs ih =>
    intro st m h
    simp only [parsePlacement] at h
    by_cases hc : c = '/'
    · rw [if_pos hc] at h
      by_cases hr : st.rank = 0
      · rw [if_pos hr] at h; cases h
      · rw [if_neg hr] at h
        exact ih _ _ h
    · rw [if_neg hc] at h
      by_cases hd : isFenDigit c = true
      · rw [if_pos hd] at h
        exact ih _ _ h
      · rw [if_neg hd] at h
        cases hp : pieceOfChar c with
        | some pc =>
          obtain ⟨p, col⟩ := pc
          simp only [hp] at h
          by_cases hidx : st.rank * 8 + st.file < 64
          · rw [dif_pos hidx] at h
            exact ih _ _ h
          · rw [dif_neg hidx] at h
            cases h
        | none =>
          simp only [hp] at h
          injection h with h'
          exact h'.symm

/-- Every error `from_fen` can return is one of the six typed parse
errors. -/
theorem from_fen_err_typed {s : String} {m : String}
    (h : from_fen s = .err m) : typedErr m := by
  simp only [from_fen] at h
  rcases Outcome.bind_eq_err_iff.mp h with h | ⟨f0, hf0, h⟩
  · exact absurd h (fieldGet_ne_err _ _ _)
  rcases Outcome.bind_eq_err_iff.mp h with h | ⟨st, hst, h⟩
  · exact Or.inl (parsePlacement_err _ _ _ h)
  rcases Outcome.bind_eq_err_iff.mp h with h | ⟨f1, hf1, h⟩
  · exact absurd h (fieldGet_ne_err _ _ _)
  rcases Outcome.bind_eq_err_iff.mp h with h | ⟨c, hc, h⟩
  · exact Or.inr (Or.inl (parseColor_err _ _ h))
  rcases Outcome.bind_eq_err_iff.mp h with h | ⟨f2, hf2, h⟩
  · exact absurd h (fieldGet_ne_err _ _ _)
  rcases Outcome.bind_eq_err_iff.mp h with h | ⟨u, hu, h⟩
  · by_cases hcs : castlingOk f2 = true
    · rw [if_pos hcs] at h
      exact Outcome.noConfusion h
    · rw [if_neg hcs] at h
      injection h with h'
      exact Or.inr (Or.inr (Or.inl h'.symm))
  rcases Outcome.bind_eq_err_iff.mp h with h | ⟨f4, hf4, h⟩
  · exact absurd h (fieldGet_ne_err _ _ _)
  rcases Outcome.bind_eq_err_iff.mp h with h | ⟨hmv, hhm, h⟩
  · cases hma : parseU32 f4 with
    | none =>
      rw [hma] at h
      injection h with h'
      exact Or.inr (Or.inr (Or.inr (Or.inl h'.symm)))
    | some v =>
      rw [hma] at h
      exact Outcome.noConfusion h
  rcases Outcome.bind_eq_err_iff.mp h with h | ⟨f5, hf5, h⟩
  · exact absurd h (fieldGet_ne_err _ _ _)
  rcases Outcome.bind_eq_err_iff.mp h with h | ⟨fmv, hfm, h⟩
  · cases hma : parseU32 f5 with
    | none =>
      rw [hma] at h
      injection h with h'
      exact Or.inr (Or.inr (Or.inr (Or.inr (Or.inl h'.symm))))
    | some v =>
      rw [hma] at h
      exact Outcome.noConfusion h
  rcases Outcome.bind_eq_err_iff.mp h with h | ⟨f3, hf3, h⟩
  · exact absurd h (fieldGet_ne_err _ _ _)
  rcases Outcome.bind_eq_err_iff.mp h with h | ⟨ep, hep, h⟩
  · obtain ⟨t, ht⟩ := parse_en_passant_err _ _ h
    exact Or.inr (Or.inr (Or.inr (Or.inr (Or.inr ⟨t, ht⟩))))
  · exact Outcome.noConfusion h

/-- C2 (amended): `from_fen` is panic-free only on inputs with at least
six whitespace-separated fields whose placement field respects the
rank/file bounds discipline (`placementOk`: at most eight ranks and no
rank spilling past the board); under those conditions every failure is
one of the six typed recoverable errors (InvalidPieceSymbol,
InvalidActiveColor, InvalidCastlingRights, InvalidHalfmoveClock,
InvalidFullmoveNumber, InvalidSquare).  Without them `from_fen` can
panic, as the counterexample theorem shows. -/
theorem from_fen_no_panic_when_well_shaped (s : String)
    (h6 : 6 ≤ (splitWS s.toList).length)
    (hpl : placementOk ((splitWS s.toList).getD 0 []) 0 7 = true) :
    from_fen s ≠ .panic ∧ ∀ m, from_fen s = .err m → typedErr m := by
  refine ⟨?_, fun m hm => from_fen_err_typed hm⟩
  intro hp
  simp only [from_fen] at hp
  rcases Outcome.bind_eq_panic_iff.mp hp with h | ⟨f0, hf0, hp⟩
  · rw [fieldGet_ok_of_lt (show 0 < (splitWS s.toList).length by omega)] at h
    exact Outcome.noConfusion h
  have h0 : (0 : Nat) < (splitWS s.toList).length := by omega
  rw [fieldGet_ok_of_lt h0] at hf0
  injection hf0 with hf0'
  have hplf0 : placementOk f0 0 7 = true := by
    rw [← hf0']
    rw [list_getD_eq_getElem, List.getElem?_eq_getElem h0] at hpl
    exact hpl
  rcases Outcome.bind_eq_panic_iff.mp hp with h | ⟨st, hst, hp⟩
  · exact parsePlacement_no_panic f0 ⟨fun _ => none, fun _ => none, 0, 7⟩
      hplf0 h
  rcases Outcome.bind_eq_panic_iff.mp hp with h | ⟨f1, hf1, hp⟩
  · rw [fieldGet_ok_of_lt (show 1 < (splitWS s.toList).length by omega)] at h
    exact Outcome.noConfusion h
  rcases Outcome.bind_eq_panic_iff.mp hp with h | ⟨c, hc, hp⟩
  · exact parseColor_ne_panic f1 h
  rcases Outcome.bind_eq_panic_iff.mp hp with h | ⟨f2, hf2, hp⟩
  · rw [fieldGet_ok_of_lt (show 2 < (splitWS s.toList).length by omega)] at h
    exact Outcome.noConfusion h
  rcases Outcome.bind_eq_panic_iff.mp hp with h | ⟨u, hu, hp⟩
  · by_cases hcs : castlingOk f2 = true
    · rw [if_pos hcs] at h; cases h
    · rw [if_neg hcs] at h; cases h
  rcases Outcome.bind_eq_panic_iff.mp hp with h | ⟨f4, hf4, hp⟩
  · rw [fieldGet_ok_of_lt (show 4 < (splitWS s.toList).length by omega)] at h
    exact Outcome.noConfusion h
  rcases Outcome.bind_eq_panic_iff.mp hp with h | ⟨hmv, hhm, hp⟩
  · cases hma : parseU32 f4 with
    | none => rw [hma] at h; exact Outcome.noConfusion h
    | some v => rw [hma] at h; exact Outcome.noConfusion h
  rcases Outcome.bind_eq_panic_iff.mp hp with h | ⟨f5, hf5, hp⟩
  · rw [fieldGet_ok_of_lt (show 5 < (splitWS s.toList).length by omega)] at h
    exact Outcome.noConfusion h
  rcases Outcome.bind_eq_panic_iff.mp hp with h | ⟨fmv, hfm, hp⟩
  · cases hma : parseU32 f5 with
    | none => rw [hma] at h; exact Outcome.noConfusion h
    | some v => rw [hma] at h; exact Outcome.noConfusion h
  rcases Outcome.bind_eq_panic_iff.mp hp with h | ⟨f3, hf3, hp⟩
  · rw [fieldGet_ok_of_lt (show 3 < (splitWS s.toList).length by omega)] at h
    exact Outcome.noConfusion h
  rcases Outcome.bind_eq_panic_iff.mp hp with h | ⟨ep, hep, hp⟩
  · exact parse_en_passant_ne_panic f3 h
  · exact Outcome.noConfusion hp

theorem from_fen_no_panic_when_well_shaped_witness :
    (6 ≤ (splitWS startingFen.toList).length ∧
      placementOk ((splitWS startingFen.toList).getD 0 []) 0 7 = true) ∧
    (from_fen startingFen ≠ .panic ∧
      ∀ m, from_fen startingFen = .err m → typedErr m) :=
  ⟨⟨by decide, by decide⟩,
    from_fen_no_panic_when_well_shaped startingFen (by decide) (by decide)⟩

/-- C5 (amended): the full-move number of any Position `from_fen` returns
is exactly the u32 value parsed from the sixth whitespace-separated
field — it fits in 32 bits but is subject to no positivity check, so it
can be 0. -/
theorem full_move_number_is_parsed_sixth_field {s : String} {b : Board}
    (h : from_fen s = .ok b) :
    b.full_move_number < 4294967296 ∧
      ∃ f5, (splitWS s.toList)[5]? = some f5 ∧
        parseU32 f5 = some b.full_move_number := by
  obtain ⟨f0, st, f1, c, f2, f4, hmv, f5, fmv, f3, ep, h0, hp, h1, hc, h2,
    hcast, h4, hhm, h5, hfm, h3, hep, rfl⟩ := from_fen_ok_elim h
  exact ⟨parseU32_lt f5 fmv hfm, f5, h5, hfm⟩

theorem full_move_number_is_parsed_sixth_field_witness :
    defaultBoard.full_move_number < 4294967296 ∧
      ∃ f5, (splitWS ("8/8/8/8/8/8/8/8 w - - 0 1" : String).toList)[5]? =
          some f5 ∧
        parseU32 f5 = some defaultBoard.full_move_number :=
  full_move_number_is_parsed_sixth_field
    (show from_fen "8/8/8/8/8/8/8/8 w - - 0 1" = Outcome.ok defaultBoard
      by decide)

theorem fieldGet_six_0 (a0 a1 a2 a3 a4 a5 : List Char) :
    fieldGet [a0, a1, a2, a3, a4, a5] 0 = .ok a0 := rfl

theorem fieldGet_six_1 (a0 a1 a2 a3 a4 a5 : List Char) :
    fieldGet [a0, a1, a2, a3, a4, a5] 1 = .ok a1 := rfl

theorem fieldGet_six_2 (a0 a1 a2 a3 a4 a5 : List Char) :
    fieldGet [a0, a1, a2, a3, a4, a5] 2 = .ok a2 := rfl

theorem fieldGet_six_3 (a0 a1 a2 a3 a4 a5 : List Char) :
    fieldGet [a0, a1, a2, a3, a4, a5] 3 = .ok a3 := rfl

theorem fieldGet_six_4 (a0 a1 a2 a3 a4 a5 : List Char) :
    fieldGet [a0, a1, a2, a3, a4, a5] 4 = .ok a4 := rfl

theorem fieldGet_six_5 (a0 a1 a2 a3 a4 a5 : List Char) :
    fieldGet [a0, a1, a2, a3, a4, a5] 5 = .ok a5 := rfl

/-- Encoding any board satisfying the parser invariants with `to_fen` and
decoding the result with `from_fen` recovers the board exactly. -/
theorem to_fen_from_fen_of_wf (b : Board) (hwf : BoardWF b) :
    (to_fen b).bind (fun t => from_fen (String.mk t)) = .ok b := by
  obtain ⟨hco, hepb, hhm, hfm⟩ := hwf
  obtain ⟨epcs, hepcs, hepne, hepws, heppar⟩ :=
    epChars_roundtrip b.en_passant_square hepb
  obtain ⟨hcaok, hcane, hcaws, hK, hk, hQ, hq⟩ := castlingChars_facts b
  have hplace := parsePlacement_placementChars b hco
  have hmk : ∀ l : List Char, (String.mk l).toList = l := fun _ => rfl
  cases hmove : b.to_move with
  | white =>
    have hcolparse : parseColor ['w'] = Outcome.ok b.to_move := by
      rw [hmove]; decide
    have hrest2 : splitWS ('w' :: ' ' :: (castlingChars b ++ ' ' :: (epcs ++
        ' ' :: (natToChars b.half_move_clock ++
          ' ' :: natToChars b.full_move_number)))) =
        ['w'] :: splitWS (castlingChars b ++ ' ' :: (epcs ++
          ' ' :: (natToChars b.half_move_clock ++
            ' ' :: natToChars b.full_move_number))) :=
      splitWS_word_space ['w'] _ (by decide) (by decide)
    have hsplit : splitWS (placementChars b ++ ' ' :: 'w' :: ' ' ::
        (castlingChars b ++ ' ' :: (epcs ++ ' ' ::
          (natToChars b.half_move_clock ++ ' ' ::
            natToChars b.full_move_number)))) =
        [placementChars b, ['w'], castlingChars b, epcs,
          natToChars b.half_move_clock, natToChars b.full_move_number] := by
      rw [splitWS_word_space (placementChars b) _ (placementChars_ne_nil b)
        (placementChars_not_ws b)]
      rw [hrest2]
      rw [splitWS_word_space (castlingChars b) _ hcane hcaws]
      rw [splitWS_word_space epcs _ hepne hepws]
      rw [splitWS_word_space (natToChars b.half_move_clock) _
        (natToChars_ne_nil _) (natToChars_not_ws _)]
      rw [splitWS_last (natToChars b.full_move_number)
        (natToChars_ne_nil _) (natToChars_not_ws _)]
    have hto : to_fen b = Outcome.ok (placementChars b ++
        ' ' :: ['w'] ++ ' ' :: castlingChars b ++ ' ' :: epcs ++
        ' ' :: natToChars b.half_move_clock ++
        ' ' :: natToChars b.full_move_number) := by
      simp only [to_fen, hmove, hepcs, Outcome.map]
    rw [hto, Outcome.ok_bind]
    simp only [from_fen, hmk, List.append_assoc, List.cons_append,
      List.nil_append]
    rw [hsplit]
    simp only [fieldGet_six_0, fieldGet_six_1, fieldGet_six_2,
      fieldGet_six_3, fieldGet_six_4, fieldGet_six_5, Outcome.ok_bind,
      hplace, hcolparse, hcaok, eq_self_iff_true, if_true, heppar, hK, hk,
      hQ, hq, parseU32_natToChars b.half_move_clock hhm,
      parseU32_natToChars b.full_move_number hfm]
  | black =>
    have hcolparse : parseColor ['b'] = Outcome.ok b.to_move := by
      rw [hmove]; decide
    have hrest2 : splitWS ('b' :: ' ' :: (castlingChars b ++ ' ' :: (epcs ++
        ' ' :: (natToChars b.half_move_clock ++
          ' ' :: natToChars b.full_move_number)))) =
        ['b'] :: splitWS (castlingChars b ++ ' ' :: (epcs ++
          ' ' :: (natToChars b.half_move_clock ++
            ' ' :: natToChars b.full_move_number))) :=
      splitWS_word_space ['b'] _ (by decide) (by decide)
    have hsplit : splitWS (placementChars b ++ ' ' :: 'b' :: ' ' ::
        (castlingChars b ++ ' ' :: (epcs ++ ' ' ::
          (natToChars b.half_move_clock ++ ' ' ::
            natToChars b.full_move_number)))) =
        [placementChars b, ['b'], castlingChars b, epcs,
          natToChars b.half_move_clock, natToChars b.full_move_number] := by
      rw [splitWS_word_space (placementChars b) _ (placementChars_ne_nil b)
        (placementChars_not_ws b)]
      rw [hrest2]
      rw [splitWS_word_space (castlingChars b) _ hcane hcaws]
      rw [splitWS_word_space epcs _ hepne hepws]
      rw [splitWS_word_space (natToChars b.half_move_clock) _
        (natToChars_ne_nil _) (natToChars_not_ws _)]
      rw [splitWS_last (natToChars b.full_move_number)
        (natToChars_ne_nil _) (natToChars_not_ws _)]
    have hto : to_fen b = Outcome.ok (placementChars b ++
        ' ' :: ['b'] ++ ' ' :: castlingChars b ++ ' ' :: epcs ++
        ' ' :: natToChars b.half_move_clock ++
        ' ' :: natToChars b.full_move_number) := by
      simp only [to_fen, hmove, hepcs, Outcome.map]
    rw [hto, Outcome.ok_bind]
    simp only [from_fen, hmk, List.append_assoc, List.cons_append,
      List.nil_append]
    rw [hsplit]
    simp only [fieldGet_six_0, fieldGet_six_1, fieldGet_six_2,
      fieldGet_six_3, fieldGet_six_4, fieldGet_six_5, Outcome.ok_bind,
      hplace, hcolparse, hcaok, eq_self_iff_true, if_true, heppar, hK, hk,
      hQ, hq, parseU32_natToChars b.half_move_clock hhm,
      parseU32_natToChars b.full_move_number hfm]

/-- C3: for every Position that `from_fen` produces from some input
string, encoding it with `to_fen` succeeds up to the en-passant table
lookup and decoding that string with `from_fen` yields exactly the same
Position — placement, side to move, castling rights, en-passant target,
half-move clock and full-move number all round-trip. -/
theorem from_fen_to_fen_round_trip {s : String} {b : Board}
    (h : from_fen s = .ok b) :
    (to_fen b).bind (fun t => from_fen (String.mk t)) = .ok b :=
  to_fen_from_fen_of_wf b (from_fen_wf h)

theorem from_fen_to_fen_round_trip_witness :
    (to_fen starting_board).bind (fun t => from_fen (String.mk t)) =
      .ok starting_board :=
  from_fen_to_fen_round_trip
    (show from_fen startingFen = Outcome.ok starting_board by decide)

end Lubyanka
